import Mathlib

/-!
Verification of the nicovideo fixture-generation utility.

This file gives a shallow embedding of the fixture generator
(`src/fixture_generator/*.py`, `scripts/*.py`) and proves the spec's claims
about it.  Python `dict`s are modelled as key-unique association lists,
Python `str` values as Lean `String`s, JSON numbers as `Int` (the repository
only produces and consumes integer-valued volatile fields), the file system
as a total map from (GENERATED_FIXTURES_DIR-relative) path strings to file
states, and Python exceptions caught by `except Exception` as an explicit
error type.
-/

/-- JSON values as produced by `model_dump` / consumed by `json.dumps` and
`sort_dict_keys_and_lists`.  An `obj` is a Python `dict` modelled as an
association list in insertion order; `arr` is a Python `list`. -/
inductive JsonValue where
  | null
  | bool (b : Bool)
  | num (n : Int)
  | str (s : String)
  | arr (elems : List JsonValue)
  | obj (entries : List (String × JsonValue))

/-- Strict lexicographic order on character lists: Python's `<` on `str`
(code-point comparison). -/
def lexLtB : List Char → List Char → Bool
  | [], [] => false
  | [], _ :: _ => true
  | _ :: _, [] => false
  | a :: as, b :: bs => if a < b then true else if a = b then lexLtB as bs else false

/-- Non-strict lexicographic order on character lists: Python's `<=` on `str`. -/
def lexLeB : List Char → List Char → Bool
  | [], _ => true
  | _ :: _, [] => false
  | a :: as, b :: bs => if a < b then true else if a = b then lexLeB as bs else false

/-- The decimal digit characters, `str(d)` for `0 <= d <= 9`. -/
def digitChar : Nat → Char
  | 0 => '0' | 1 => '1' | 2 => '2' | 3 => '3' | 4 => '4'
  | 5 => '5' | 6 => '6' | 7 => '7' | 8 => '8' | _ => '9'

/-- Whether a character is a decimal digit. -/
def isDigitB (c : Char) : Bool := decide (48 ≤ c.toNat) && decide (c.toNat ≤ 57)

/-- Decimal digits of a natural number, with explicit fuel so that the
definition is structural (the fuel exceeds the digit count whenever
`n < fuel`). -/
def natCharsAux : Nat → Nat → List Char
  | 0, _ => []
  | fuel + 1, n =>
      if n < 10 then [digitChar n]
      else natCharsAux fuel (n / 10) ++ [digitChar (n % 10)]

/-- Decimal digits of a natural number: Python `str(n)` for `n >= 0`. -/
def natChars (n : Nat) : List Char := natCharsAux (n + 1) n

/-- Python `str(i)` for an `int`: optional minus sign followed by digits. -/
def intChars (i : Int) : List Char :=
  if i < 0 then '-' :: natChars (-i).toNat else natChars i.toNat

/-- Numeric value of a digit string (used to invert `natChars`). -/
def valOfDigits (ds : List Char) : Nat :=
  ds.foldl (fun acc c => acc * 10 + (c.toNat - 48)) 0

/-- One hexadecimal digit (lowercase), as used in Python `\xNN` escapes. -/
def hexDigit (n : Nat) : Char :=
  if n < 10 then digitChar n
  else if n = 10 then 'a' else if n = 11 then 'b' else if n = 12 then 'c'
  else if n = 13 then 'd' else if n = 14 then 'e' else 'f'

/-- Python `repr` escaping of one character inside a string literal quoted by
`q`: the quote character and the backslash are backslash-escaped, tab,
newline and carriage return use their shorthand escapes, other
non-printable characters (code points below `0x20`, and `0x7f`) use `\xNN`,
and everything else is emitted literally. -/
def escChar (q c : Char) : List Char :=
  if c = q ∨ c = '\\' then ['\\', c]
  else if c = '\t' then ['\\', 't']
  else if c = '\n' then ['\\', 'n']
  else if c = '\r' then ['\\', 'r']
  else if c.toNat < 32 ∨ c.toNat = 127 then
    ['\\', 'x', hexDigit (c.toNat / 16), hexDigit (c.toNat % 16)]
  else [c]

/-- `escChar` applied to every character of a string body. -/
def escapeStr (q : Char) : List Char → List Char
  | [] => []
  | c :: t => escChar q c ++ escapeStr q t

/-- Quote character chosen by Python `repr` for a string: a double quote
when the string contains a single quote but no double quote, otherwise a
single quote. -/
def quoteFor (s : List Char) : Char :=
  if s.contains '\'' ∧ ¬s.contains '"' then '"' else '\''

/-- Python `repr` of a string: chosen quote, escaped body, closing quote. -/
def pyStrLit (s : List Char) : List Char :=
  quoteFor s :: (escapeStr (quoteFor s) s ++ [quoteFor s])

mutual

/-- Python `repr(x)` for a JSON value, as a character list:
`None`/`True`/`False`, decimal integers, quoted strings, `[a, b]` lists and
`{k: v, ...}` dicts. -/
def pyReprChars : JsonValue → List Char
  | .null => ['N', 'o', 'n', 'e']
  | .bool true => ['T', 'r', 'u', 'e']
  | .bool false => ['F', 'a', 'l', 's', 'e']
  | .num n => intChars n
  | .str s => pyStrLit s.data
  | .arr xs => '[' :: (pyReprElems xs ++ [']'])
  | .obj kvs => '\x7b' :: (pyReprEntries kvs ++ ['\x7d'])

/-- The comma-separated element list inside `repr` of a Python list. -/
def pyReprElems : List JsonValue → List Char
  | [] => []
  | [x] => pyReprChars x
  | x :: y :: xs => pyReprChars x ++ ',' :: ' ' :: pyReprElems (y :: xs)

/-- The comma-separated `key: value` list inside `repr` of a Python dict. -/
def pyReprEntries : List (String × JsonValue) → List Char
  | [] => []
  | [(k, v)] => pyStrLit k.data ++ ':' :: ' ' :: pyReprChars v
  | (k, v) :: p :: t =>
      pyStrLit k.data ++ ':' :: ' ' :: pyReprChars v ++ ',' :: ' ' :: pyReprEntries (p :: t)

end

/-- Python `type(x).__name__` for a JSON value. -/
def pyTypeNameChars : JsonValue → List Char
  | .null => ['N', 'o', 'n', 'e', 'T', 'y', 'p', 'e']
  | .bool _ => ['b', 'o', 'o', 'l']
  | .num _ => ['i', 'n', 't']
  | .str _ => ['s', 't', 'r']
  | .arr _ => ['l', 'i', 's', 't']
  | .obj _ => ['d', 'i', 'c', 't']

/-- Python `str(x)` for a JSON value: the raw characters for a string, and
`repr(x)` for every other JSON type. -/
def pyStrChars : JsonValue → List Char
  | .str s => s.data
  | v => pyReprChars v

/-- The sort key comparison used by `sort_dict_keys_and_lists` for list
elements, from `helpers.py`: `key=lambda x: (type(x).__name__, str(x))`,
compared as Python compares tuples of strings (lexicographically). -/
def sortKeyLeB (x y : JsonValue) : Bool :=
  if pyTypeNameChars x = pyTypeNameChars y then lexLeB (pyStrChars x) (pyStrChars y)
  else lexLtB (pyTypeNameChars x) (pyTypeNameChars y)

/-- Propositional form of `sortKeyLeB`, for `List.insertionSort`. -/
def sortKeyLe (x y : JsonValue) : Prop := sortKeyLeB x y = true

instance : DecidableRel sortKeyLe := fun x y =>
  inferInstanceAs (Decidable (sortKeyLeB x y = true))

/-- Comparison of dict entries by key, from `helpers.py`: `sorted(obj.keys())`
compares the key strings (Python string order). -/
def entryKeyLeB (a b : String × JsonValue) : Bool := lexLeB a.1.data b.1.data

/-- Propositional form of `entryKeyLeB`. -/
def entryKeyLe (a b : String × JsonValue) : Prop := entryKeyLeB a b = true

instance : DecidableRel entryKeyLe := fun a b =>
  inferInstanceAs (Decidable (entryKeyLeB a b = true))

mutual

/-- `helpers.sort_dict_keys_and_lists`: recursively sorts dictionary keys
alphabetically and list elements by `(type name, string representation)`.
A Python dict (unique keys) is modelled as an association list, so the
comprehension `{key: rec(obj[key]) for key in sorted(obj.keys())}` is the
stable sort of the recursively-processed entries by key; Python's stable
`sorted` is modelled by the stable `List.insertionSort`.  The
`except (TypeError, ValueError)` fallback in the source is unreachable
here: comparing tuples of strings never raises. -/
def sort_dict_keys_and_lists : JsonValue → JsonValue
  | .null => .null
  | .bool b => .bool b
  | .num n => .num n
  | .str s => .str s
  | .arr xs => .arr ((sortJsonList xs).insertionSort sortKeyLe)
  | .obj kvs => .obj ((sortJsonEntries kvs).insertionSort entryKeyLe)

/-- Recursive processing of the items of a list (`sorted_items` in the
source). -/
def sortJsonList : List JsonValue → List JsonValue
  | [] => []
  | x :: xs => sort_dict_keys_and_lists x :: sortJsonList xs

/-- Recursive processing of the values of a dict. -/
def sortJsonEntries : List (String × JsonValue) → List (String × JsonValue)
  | [] => []
  | (k, v) :: t => (k, sort_dict_keys_and_lists v) :: sortJsonEntries t

end

/-- Adjacent-pairs sortedness check for a Bool comparison. -/
def sortedByB (le : α → α → Bool) : List α → Bool
  | [] => true
  | [_] => true
  | a :: b :: t => le a b && sortedByB le (b :: t)

mutual

/-- A JSON value is normalized when every dict's keys are in ascending
order and every list is sorted by the `(type name, str)` key, recursively. -/
def isNormalized : JsonValue → Bool
  | .null => true
  | .bool _ => true
  | .num _ => true
  | .str _ => true
  | .arr xs => sortedByB sortKeyLeB xs && allNormalized xs
  | .obj kvs => sortedByB entryKeyLeB kvs && allNormalizedEntries kvs

/-- All elements normalized. -/
def allNormalized : List JsonValue → Bool
  | [] => true
  | x :: xs => isNormalized x && allNormalized xs

/-- All entry values normalized. -/
def allNormalizedEntries : List (String × JsonValue) → Bool
  | [] => true
  | (_, v) :: t => isNormalized v && allNormalizedEntries t

end

/-- Key uniqueness of an association list, as Python dicts guarantee. -/
def nodupKeysB (kvs : List (String × JsonValue)) : Bool :=
  match kvs with
  | [] => true
  | (k, _) :: t => !(t.any (fun p => p.1 == k)) && nodupKeysB t

mutual

/-- Well-formedness of a JSON value as an image of Python data: every dict
has unique keys, recursively. -/
def jsonWF : JsonValue → Bool
  | .null => true
  | .bool _ => true
  | .num _ => true
  | .str _ => true
  | .arr xs => allWF xs
  | .obj kvs => nodupKeysB kvs && allWFEntries kvs

/-- All elements well-formed. -/
def allWF : List JsonValue → Bool
  | [] => true
  | x :: xs => jsonWF x && allWF xs

/-- All entry values well-formed. -/
def allWFEntries : List (String × JsonValue) → Bool
  | [] => true
  | (_, v) :: t => jsonWF v && allWFEntries t

end

mutual

/-- Two JSON values differ only in the order of dictionary entries and list
elements (at any nesting level). -/
inductive JsonEquiv : JsonValue → JsonValue → Prop where
  | null : JsonEquiv .null .null
  | bool (b : Bool) : JsonEquiv (.bool b) (.bool b)
  | num (n : Int) : JsonEquiv (.num n) (.num n)
  | str (s : String) : JsonEquiv (.str s) (.str s)
  | arr (xs zs ys : List JsonValue) :
      JsonListEquiv xs zs → zs.Perm ys → JsonEquiv (.arr xs) (.arr ys)
  | obj (kvs zs ys : List (String × JsonValue)) :
      JsonEntriesEquiv kvs zs → zs.Perm ys → JsonEquiv (.obj kvs) (.obj ys)

/-- Elementwise `JsonEquiv` between two lists of the same length. -/
inductive JsonListEquiv : List JsonValue → List JsonValue → Prop where
  | nil : JsonListEquiv [] []
  | cons (x y : JsonValue) (xs ys : List JsonValue) :
      JsonEquiv x y → JsonListEquiv xs ys → JsonListEquiv (x :: xs) (y :: ys)

/-- Entrywise equivalence: same key, `JsonEquiv` values. -/
inductive JsonEntriesEquiv :
    List (String × JsonValue) → List (String × JsonValue) → Prop where
  | nil : JsonEntriesEquiv [] []
  | cons (k : String) (v w : JsonValue) (t₁ t₂ : List (String × JsonValue)) :
      JsonEquiv v w → JsonEntriesEquiv t₁ t₂ →
      JsonEntriesEquiv ((k, v) :: t₁) ((k, w) :: t₂)

end

/-- Structural induction principle for `JsonValue` with membership-indexed
hypotheses for the nested lists. -/
theorem jsonInduction (P : JsonValue → Prop)
    (hnull : P .null) (hbool : ∀ b, P (.bool b))
    (hnum : ∀ n, P (.num n)) (hstr : ∀ s, P (.str s))
    (harr : ∀ xs, (∀ x ∈ xs, P x) → P (.arr xs))
    (hobj : ∀ kvs, (∀ kv ∈ kvs, P kv.2) → P (.obj kvs)) :
    ∀ v, P v
  | .null => hnull
  | .bool b => hbool b
  | .num n => hnum n
  | .str s => hstr s
  | .arr xs => harr xs (fun x hx =>
      have : sizeOf x < 1 + sizeOf xs := by
        have h := List.sizeOf_lt_of_mem hx
        omega
      jsonInduction P hnull hbool hnum hstr harr hobj x)
  | .obj kvs => hobj kvs (fun kv hkv =>
      have : sizeOf kv.2 < 1 + sizeOf kvs := by
        have h := List.sizeOf_lt_of_mem hkv
        have h2 : sizeOf kv.2 < sizeOf kv := by
          obtain ⟨k, v⟩ := kv
          simp only [Prod.mk.sizeOf_spec]
          omega
        omega
      jsonInduction P hnull hbool hnum hstr harr hobj kv.2)
termination_by v => sizeOf v

/-- JSON string escaping as performed by `json.dumps` with
`ensure_ascii=False`: double quote and backslash are escaped, control
characters use shorthand or `\u00NN` escapes, everything else (including
non-ASCII) is emitted literally. -/
def jsonEscChar (c : Char) : List Char :=
  if c = '"' then ['\\', '"']
  else if c = '\\' then ['\\', '\\']
  else if c = '\x08' then ['\\', 'b']
  else if c = '\x0c' then ['\\', 'f']
  else if c = '\n' then ['\\', 'n']
  else if c = '\r' then ['\\', 'r']
  else if c = '\t' then ['\\', 't']
  else if c.toNat < 32 then
    ['\\', 'u', '0', '0', hexDigit (c.toNat / 16), hexDigit (c.toNat % 16)]
  else [c]

/-- `jsonEscChar` over a whole string body. -/
def jsonEscStr : List Char → List Char
  | [] => []
  | c :: t => jsonEscChar c ++ jsonEscStr t

/-- A JSON string literal: `"` + escaped body + `"`. -/
def jsonStrLit (s : String) : List Char := '"' :: (jsonEscStr s.data ++ ['"'])

/-- `n` spaces of indentation. -/
def indentSpaces (n : Nat) : List Char := List.replicate n ' '

mutual

/-- `json.dumps(v, ensure_ascii=False, indent=2)` at nesting level `lvl`:
non-empty containers put each item on its own line, indented two more
spaces, with `", "`-style separators replaced by `",\n"` and `": "` after
keys. -/
def dumpsVal (lvl : Nat) : JsonValue → List Char
  | .null => "null".data
  | .bool true => "true".data
  | .bool false => "false".data
  | .num n => intChars n
  | .str s => jsonStrLit s
  | .arr [] => ['[', ']']
  | .arr (x :: xs) =>
      '[' :: '\n' ::
        (dumpsElems (lvl + 1) (x :: xs) ++ '\n' :: (indentSpaces (2 * lvl) ++ [']']))
  | .obj [] => ['\x7b', '\x7d']
  | .obj (e :: t) =>
      '\x7b' :: '\n' ::
        (dumpsEntries (lvl + 1) (e :: t) ++ '\n' :: (indentSpaces (2 * lvl) ++ ['\x7d']))

/-- The newline-separated, indented elements of a non-empty JSON array. -/
def dumpsElems (lvl : Nat) : List JsonValue → List Char
  | [] => []
  | [x] => indentSpaces (2 * lvl) ++ dumpsVal lvl x
  | x :: y :: ys =>
      indentSpaces (2 * lvl) ++ dumpsVal lvl x ++ ',' :: '\n' :: dumpsElems lvl (y :: ys)

/-- The newline-separated, indented entries of a non-empty JSON object. -/
def dumpsEntries (lvl : Nat) : List (String × JsonValue) → List Char
  | [] => []
  | [(k, v)] => indentSpaces (2 * lvl) ++ jsonStrLit k ++ ':' :: ' ' :: dumpsVal lvl v
  | (k, v) :: f :: t =>
      indentSpaces (2 * lvl) ++ jsonStrLit k ++ ':' :: ' ' :: dumpsVal lvl v ++
        ',' :: '\n' :: dumpsEntries lvl (f :: t)

end

/-- `json.dumps(data, ensure_ascii=False, indent=2)` as a Lean `String`. -/
def jsonDumps (data : JsonValue) : String := String.mk (dumpsVal 0 data)

/-- State of one path in the file system: missing, present but unreadable
(reading raises), or readable with the given content. -/
inductive FileState where
  | absent
  | unreadable
  | readable (content : String)

/-- The file system, as a map from path to file state.  Paths are modelled
relative to `GENERATED_FIXTURES_DIR`. -/
def FileSystem : Type := String → FileState

/-- `diff_tracker.FixtureDiffTracker`: lists of changed and new fixture
paths, both initially empty. -/
structure FixtureDiffTracker where
  changed_fixtures : List String
  new_fixtures : List String

/-- `FixtureDiffTracker.load_existing_fixture`: the file's content when the
path exists and reading succeeds, `None` otherwise (missing file, or the
read raised and was logged). -/
def load_existing_fixture (fs : FileSystem) (fixture_path : String) : Option String :=
  match fs fixture_path with
  | .readable content => some content
  | _ => none

/-- `FixtureDiffTracker.format_fixture_content`:
`json.dumps(data, ensure_ascii=False, indent=2) + "\n"`. -/
def format_fixture_content (data : JsonValue) : String := jsonDumps data ++ "\n"

/-- `fixture_path.relative_to(GENERATED_FIXTURES_DIR)`: the identity here,
because paths are already modelled relative to that directory. -/
def relative_to_generated (fixture_path : String) : String := fixture_path

/-- `FixtureDiffTracker.track_fixture_changes`: loads the existing content,
formats the new content, and records the relative path as changed (when
existing content differs) or new (when nothing could be loaded).  Logging
has no effect on the state. -/
def track_fixture_changes (tracker : FixtureDiffTracker) (fs : FileSystem)
    (data : JsonValue) (fixture_path : String) : FixtureDiffTracker :=
  let old_content := load_existing_fixture fs fixture_path
  let new_content := format_fixture_content data
  let relative_path := relative_to_generated fixture_path
  match old_content with
  | some c =>
      if c ≠ new_content then
        { tracker with changed_fixtures := tracker.changed_fixtures ++ [relative_path] }
      else tracker
  | none => { tracker with new_fixtures := tracker.new_fixtures ++ [relative_path] }

/-- `fixture_saver.FixtureSaver`: holds the diff tracker. -/
structure FixtureSaver where
  diff_tracker : FixtureDiffTracker

/-- `FixtureSaver._save_file`: writes
`json.dumps(data, ensure_ascii=False, indent=2) + "\n"` to the path
(directory creation has no observable effect in this model). -/
def save_file (fs : FileSystem) (data : JsonValue) (fixture_path : String) : FileSystem :=
  fun p => if p = fixture_path then .readable (jsonDumps data ++ "\n") else fs p

/-- `FixtureSaver.save_fixture_data`: tracks changes against the existing
file, then saves the new content. -/
def save_fixture_data (saver : FixtureSaver) (fs : FileSystem) (data : JsonValue)
    (fixture_path : String) : FixtureSaver × FileSystem :=
  ({ diff_tracker := track_fixture_changes saver.diff_tracker fs data fixture_path },
    save_file fs data fixture_path)

/-- A Python object returned by the API client, as far as the generator
inspects it: its runtime type (identified by name), whether that type is a
`pydantic.BaseModel` subclass, and its `model_dump(by_alias=True)` image. -/
structure PyObj where
  ty : String
  isBaseModel : Bool
  dump : JsonValue

/-- `FixtureAPIResult`: a single model object or a list of model objects. -/
inductive FixtureAPIResult where
  | single (o : PyObj)
  | list (xs : List PyObj)

/-- `FixturePathToTypeMapping`: a fixture key `"category/name.json"` and the
recorded type, if any. -/
structure FixturePathToTypeMapping where
  key : String
  fixture_type : Option String

/-- `FixturePathToTypeMapping.auto_detect_fixture_type`: for a list, the
type of the first element provided the list is non-empty and that type is a
`BaseModel` subclass; for a single object, its type; otherwise nothing. -/
def auto_detect_fixture_type (response : FixtureAPIResult) : Option String :=
  match response with
  | .list [] => none
  | .list (first_item :: _) =>
      if first_item.isBaseModel then some first_item.ty else none
  | .single o => some o.ty

/-- Python dict assignment `d[k] = v` on an association list: replaces the
value in place when the key is present, appends otherwise. -/
def dictInsert {A : Type} : List (String × A) → String → A → List (String × A)
  | [], k, v => [(k, v)]
  | (k', v') :: t, k, v =>
      if k' = k then (k, v) :: t else (k', v') :: dictInsert t k v

/-- Python dict lookup `d.get(k)` on an association list. -/
def dictLookup {A : Type} : List (String × A) → String → Option A
  | [], _ => none
  | (k', v') :: t, k => if k' = k then some v' else dictLookup t k

/-- `FixtureTypeMappingCollector`: the collected `fixture_mappings` dict. -/
structure FixtureTypeMappingCollector where
  fixture_mappings : List (String × FixturePathToTypeMapping)

/-- `FixtureTypeMappingCollector.record_type_mapping`: builds the key
`f"{category}/{name}.json"`, auto-detects the fixture type from the
response, and stores the mapping under that key. -/
def record_type_mapping (collector : FixtureTypeMappingCollector)
    (response : FixtureAPIResult) (category name : String) :
    FixtureTypeMappingCollector :=
  let key := category ++ "/" ++ name ++ ".json"
  let mapping : FixturePathToTypeMapping :=
    { key := key, fixture_type := auto_detect_fixture_type response }
  { fixture_mappings := dictInsert collector.fixture_mappings key mapping }

/-- `FixtureTypeMappingCollector.get_all_mappings`: the keys whose mapping
recorded a type, each mapped to that type. -/
def get_all_mappings (collector : FixtureTypeMappingCollector) :
    List (String × String) :=
  collector.fixture_mappings.filterMap (fun p =>
    match p.2.fixture_type with
    | some t => some (p.1, t)
    | none => none)

/-- Modelled from the spec: `field_stabilizer.py` is imported by the
orchestrator but is not among the provided sources.  The spec describes it
as "field stabilization of volatile API fields (timestamps, counters) for
reproducible snapshots" by "recursive dict/list traversal", so it is
modelled as a set of volatile field names together with the stable
replacement used for each. -/
structure FieldStabilizer where
  volatile : String → Bool
  placeholder : String → JsonValue → JsonValue

mutual

/-- Modelled from the spec: recursive dict/list traversal replacing the
value of every volatile field with its stable placeholder. -/
def stabilizeJson (st : FieldStabilizer) : JsonValue → JsonValue
  | .null => .null
  | .bool b => .bool b
  | .num n => .num n
  | .str s => .str s
  | .arr xs => .arr (stabilizeJsonList st xs)
  | .obj kvs => .obj (stabilizeJsonEntries st kvs)

/-- Traversal of list elements. -/
def stabilizeJsonList (st : FieldStabilizer) : List JsonValue → List JsonValue
  | [] => []
  | x :: xs => stabilizeJson st x :: stabilizeJsonList st xs

/-- Traversal of dict entries: volatile fields are replaced, others
recursed into. -/
def stabilizeJsonEntries (st : FieldStabilizer) :
    List (String × JsonValue) → List (String × JsonValue)
  | [] => []
  | (k, v) :: t =>
      (k, if st.volatile k then st.placeholder k v else stabilizeJson st v) ::
        stabilizeJsonEntries st t

end

/-- Stabilization of one model object: its fields (hence its dump) are
normalized; its runtime type is unchanged. -/
def stabilizeObj (st : FieldStabilizer) (o : PyObj) : PyObj :=
  { o with dump := stabilizeJson st o.dump }

/-- Modelled from the spec: `FieldStabilizer.stabilize` applied to an API
response, normalizing each model object in place. -/
def FieldStabilizer.stabilize (st : FieldStabilizer) :
    FixtureAPIResult → FixtureAPIResult
  | .single o => .single (stabilizeObj st o)
  | .list xs => .list (xs.map (stabilizeObj st))

/-- `helpers.to_dict_for_fixture`: `model_dump(by_alias=True)` for a single
`BaseModel`, and the list of member dumps for a list. -/
def to_dict_for_fixture : FixtureAPIResult → JsonValue
  | .single o => o.dump
  | .list xs => .arr (xs.map (fun item => item.dump))

/-- `generation_orchestrator.API_CALL_DELAY_SECONDS` (`1.0` seconds,
modelled as a rational). -/
def API_CALL_DELAY_SECONDS : ℚ := 1

/-- `generation_orchestrator.FIXTURE_LIMIT`. -/
def FIXTURE_LIMIT : Nat := 1

/-- `FixtureGenerationOrchestrator`: limit and components. -/
structure FixtureGenerationOrchestrator where
  limit : Nat
  type_mapping_collector : FixtureTypeMappingCollector
  fixture_saver : FixtureSaver
  field_stabilizer : FieldStabilizer

/-- `FixtureGenerationOrchestrator.__init__`: limit `FIXTURE_LIMIT`, empty
collector and tracker, a fresh field stabilizer. -/
def FixtureGenerationOrchestrator.init (stab : FieldStabilizer) :
    FixtureGenerationOrchestrator :=
  { limit := FIXTURE_LIMIT
    type_mapping_collector := { fixture_mappings := [] }
    fixture_saver := { diff_tracker := { changed_fixtures := [], new_fixtures := [] } }
    field_stabilizer := stab }

/-- A raised Python exception, as discriminated by the two `except` clauses
of `process_fixture` (`except ValidationError` / `except Exception`). -/
inductive PyErr where
  | validationError
  | otherExc

/-- `GENERATED_FIXTURES_DIR / category / f"{name}.json"`, relative to
`GENERATED_FIXTURES_DIR`. -/
def fixturePathOf (category name : String) : String :=
  category ++ "/" ++ name ++ ".json"

/-- The truncation step of `process_fixture`: a list response is cut to the
first `limit` elements, anything else passes through. -/
def truncateResponse (limit : Nat) : FixtureAPIResult → FixtureAPIResult
  | .list xs => .list (xs.take limit)
  | r => r

/-- `FixtureGenerationOrchestrator.process_fixture`.  The outcome of the
awaited `api_call` is an explicit argument: either a raised exception
(caught by the `except ValidationError` / `except Exception` clauses, both
of which log and return `None`), or `None`, or a response.  A response is
truncated to `self.limit` when it is a list, stabilized, its type recorded,
converted to JSON and saved; the stabilized response is returned. -/
def process_fixture (self : FixtureGenerationOrchestrator) (fs : FileSystem)
    (category name : String) (api_result : Except PyErr (Option FixtureAPIResult)) :
    FixtureGenerationOrchestrator × FileSystem × Option FixtureAPIResult :=
  match api_result with
  | .error _ => (self, fs, none)
  | .ok none => (self, fs, none)
  | .ok (some response₀) =>
      let response₁ := truncateResponse self.limit response₀
      let response := self.field_stabilizer.stabilize response₁
      let collector := record_type_mapping self.type_mapping_collector response category name
      let data := to_dict_for_fixture response
      let path := fixturePathOf category name
      let saved := save_fixture_data self.fixture_saver fs data path
      ({ self with type_mapping_collector := collector, fixture_saver := saved.1 },
        saved.2, some response)

/-- `types.FixtureCategory`: the seven category literals, in declaration
order. -/
def fixtureCategories : List String :=
  ["tracks", "playlists", "albums", "artists", "search", "history", "stream"]

/-- `types.is_fixture_category`. -/
def is_fixture_category (string : String) : Bool :=
  fixtureCategories.contains string

/-- An audio variant of the watch data, as inspected by
`collect_stream_fixtures`. -/
structure AudioObj where
  is_available : Bool
  quality_level : Int

/-- The best-audio selection loop of `collect_stream_fixtures`: the
available audio with the highest quality level, scanning left to right
starting from quality `-1`. -/
def select_best_audio (audios : List AudioObj) : Option AudioObj :=
  (audios.foldl
    (fun acc audio =>
      if audio.is_available && audio.quality_level > acc.2 then
        (some audio, audio.quality_level)
      else acc)
    ((none : Option AudioObj), (-1 : Int))).1

/-- The `(category, name)` arguments of the `process_fixture` calls made by
`APIFixtureCollector.collect_tracks_fixtures`, in order. -/
def collect_tracks_fixtures_calls : List (String × String) :=
  [("tracks", "own_videos"), ("tracks", "watch_data"), ("tracks", "user_videos")]

/-- `collect_playlists_fixtures` process_fixture calls, in order. -/
def collect_playlists_fixtures_calls : List (String × String) :=
  [("playlists", "own_mylists"), ("playlists", "following_mylists"),
    ("playlists", "single_mylist_details")]

/-- `collect_albums_fixtures` process_fixture calls, in order. -/
def collect_albums_fixtures_calls : List (String × String) :=
  [("albums", "own_series"), ("albums", "user_series"),
    ("albums", "single_series_details")]

/-- `collect_artists_fixtures` process_fixture calls, in order. -/
def collect_artists_fixtures_calls : List (String × String) :=
  [("artists", "following_users"), ("artists", "user_details")]

/-- `collect_search_fixtures` process_fixture calls, in order. -/
def collect_search_fixtures_calls : List (String × String) :=
  [("search", "video_search_keyword"), ("search", "video_search_tags"),
    ("search", "mylist_search"), ("search", "series_search")]

/-- `collect_history_fixtures` process_fixture calls, in order. -/
def collect_history_fixtures_calls : List (String × String) :=
  [("history", "user_history"), ("history", "user_likes")]

/-- `collect_stream_fixtures` process_fixture calls: one call when a best
audio exists, none otherwise (the method returns early after the warning). -/
def collect_stream_fixtures_calls (audios : List AudioObj) : List (String × String) :=
  match select_best_audio audios with
  | none => []
  | some _ => [("stream", "stream_data")]

/-- `APIFixtureCollector.collect_all_fixtures`: the seven per-category
collectors awaited in source order. -/
def collect_all_fixtures_calls (audios : List AudioObj) : List (String × String) :=
  collect_tracks_fixtures_calls ++ collect_playlists_fixtures_calls ++
    collect_albums_fixtures_calls ++ collect_artists_fixtures_calls ++
    collect_search_fixtures_calls ++ collect_history_fixtures_calls ++
    collect_stream_fixtures_calls audios

/-- Awaited events of the serialized API-call loop. -/
inductive ApiEvent where
  | sleep (seconds : ℚ)
  | apiStart (category name : String)
  | apiEnd (category name : String)
deriving DecidableEq

/-- The awaited events of one `process_fixture` call:
`await asyncio.sleep(API_CALL_DELAY_SECONDS)`, then the API call is awaited
to completion before anything else happens. -/
def process_fixture_trace (category name : String) : List ApiEvent :=
  [.sleep API_CALL_DELAY_SECONDS, .apiStart category name, .apiEnd category name]

/-- The event trace of a whole `collect_all_fixtures` run: each
`process_fixture` is awaited before the next one starts. -/
def collect_all_fixtures_trace (audios : List AudioObj) : List ApiEvent :=
  ((collect_all_fixtures_calls audios).map
    (fun p => process_fixture_trace p.1 p.2)).flatten

/-- Number of API calls in flight after a sequence of events. -/
def inFlight (events : List ApiEvent) : Nat :=
  events.foldl
    (fun n e =>
      match e with
      | .apiStart _ _ => n + 1
      | .apiEnd _ _ => n - 1
      | .sleep _ => n)
    0

/-- Whether a character list starts with a decimal digit. -/
def headDigitB : List Char → Bool
  | [] => false
  | c :: _ => isDigitB c

/-- Prefix determinism of `pyReprChars` at a value: whenever two
representations followed by non-digit-headed remainders coincide, the
values and the remainders coincide. -/
def pyReprDet (v₁ : JsonValue) : Prop :=
  ∀ v₂ r₁ r₂, headDigitB r₁ = false → headDigitB r₂ = false →
    pyReprChars v₁ ++ r₁ = pyReprChars v₂ ++ r₂ → v₁ = v₂ ∧ r₁ = r₂

/-- Constructor discriminant of a JSON value. -/
def classIdx : JsonValue → Nat
  | .null => 0
  | .bool _ => 1
  | .num _ => 2
  | .str _ => 3
  | .arr _ => 4
  | .obj _ => 5

/-- The constructor class that a leading `repr` character announces. -/
def headClass (c : Char) : Nat :=
  if c = 'N' then 0
  else if c = 'T' ∨ c = 'F' then 1
  else if c = '-' ∨ isDigitB c = true then 2
  else if c = '\'' ∨ c = '"' then 3
  else if c = '[' then 4
  else if c = '\x7b' then 5
  else 6

/-! ## Helper lemmas -/

theorem list_ne_append_single {α : Type} (l : List α) (a : α) : l ≠ l ++ [a] := by
  intro h
  have := congrArg List.length h
  simp at this

/-! ## C5: the saver always writes the latest serialization -/

/-- C5: after `save_fixture_data(data, fixture_path)`, the file at
`fixture_path` contains exactly `json.dumps(data, ensure_ascii=False,
indent=2)` followed by one newline — whatever the previous file state and
whatever the diff tracker decided. -/
theorem save_fixture_data_writes_latest (saver : FixtureSaver) (fs : FileSystem)
    (data : JsonValue) (fixture_path : String) :
    (save_fixture_data saver fs data fixture_path).2 fixture_path =
      .readable (jsonDumps data ++ "\n") := by
  simp [save_fixture_data, save_file]

/-! ## C10: diff comparison string equals saved string -/

/-- C10: `format_fixture_content` produces exactly the string `_save_file`
writes (both are `json.dumps(data, ensure_ascii=False, indent=2) + "\n"`),
so saving the same data twice in a row leaves the diff tracker unchanged on
the second save. -/
theorem format_fixture_content_matches_save_file (data : JsonValue)
    (fs : FileSystem) (fixture_path : String) (saver : FixtureSaver) :
    (format_fixture_content data = jsonDumps data ++ "\n" ∧
      save_file fs data fixture_path fixture_path =
        .readable (format_fixture_content data)) ∧
    (save_fixture_data (save_fixture_data saver fs data fixture_path).1
        (save_fixture_data saver fs data fixture_path).2 data fixture_path).1 =
      (save_fixture_data saver fs data fixture_path).1 := by
  refine ⟨⟨rfl, by simp [save_file, format_fixture_content]⟩, ?_⟩
  simp only [save_fixture_data]
  congr 1
  simp [track_fixture_changes, load_existing_fixture, save_file, format_fixture_content]

/-! ## C2: change tracking -/

/-- C2: `track_fixture_changes` appends the relative path to
`changed_fixtures` exactly when an existing fixture was read and differs
from the formatted data, appends it to `new_fixtures` exactly when nothing
could be loaded, and changes nothing when the existing content equals the
new content. -/
theorem track_fixture_changes_spec (tracker : FixtureDiffTracker) (fs : FileSystem)
    (data : JsonValue) (fixture_path : String) :
    ((track_fixture_changes tracker fs data fixture_path).changed_fixtures =
        tracker.changed_fixtures ++ [relative_to_generated fixture_path] ↔
      ∃ c, load_existing_fixture fs fixture_path = some c ∧
        c ≠ format_fixture_content data) ∧
    ((track_fixture_changes tracker fs data fixture_path).new_fixtures =
        tracker.new_fixtures ++ [relative_to_generated fixture_path] ↔
      load_existing_fixture fs fixture_path = none) ∧
    (∀ c, load_existing_fixture fs fixture_path = some c →
      c = format_fixture_content data →
      track_fixture_changes tracker fs data fixture_path = tracker) := by
  cases h : load_existing_fixture fs fixture_path with
  | none =>
      simp only [track_fixture_changes, h]
      refine ⟨?_, ?_, ?_⟩
      · constructor
        · intro habs
          exact absurd habs (list_ne_append_single _ _)
        · rintro ⟨c, hc, -⟩
          cases hc
      · simp
      · intro c hc
        cases hc
  | some c =>
      by_cases hc : c = format_fixture_content data
      · subst hc
        simp only [track_fixture_changes, h, ne_eq]
        rw [if_neg (by simp)]
        refine ⟨?_, ?_, ?_⟩
        · constructor
          · intro habs
            exact absurd habs (list_ne_append_single _ _)
          · rintro ⟨c', hc', hne⟩
            cases hc'
            exact absurd rfl hne
        · constructor
          · intro habs
            exact absurd habs (list_ne_append_single _ _)
          · intro habs
            cases habs
        · intro c' hc' heq
          rfl
      · simp only [track_fixture_changes, h, ne_eq]
        rw [if_pos hc]
        refine ⟨?_, ?_, ?_⟩
        · exact ⟨fun _ => ⟨c, rfl, hc⟩, fun _ => rfl⟩
        · constructor
          · intro habs
            exact absurd habs (list_ne_append_single _ _)
          · intro habs
            cases habs
        · intro c' hc' heq
          cases hc'
          exact absurd heq hc

/-! ## C9: process_fixture never propagates, and a `None` response leaves
everything untouched -/

/-- C9: every exception raised while the try-body runs is caught by the
`except ValidationError` / `except Exception` clauses and turned into a
`None` return with no state change, and a `None` API response also returns
`None` without writing a fixture or recording a type mapping. -/
theorem process_fixture_error_handling (self : FixtureGenerationOrchestrator)
    (fs : FileSystem) (category name : String) :
    (∀ e : PyErr, process_fixture self fs category name (.error e) = (self, fs, none)) ∧
    process_fixture self fs category name (.ok none) = (self, fs, none) := by
  exact ⟨fun e => rfl, rfl⟩

/-! ## C1: everything downstream of the API call sees the stabilized
response -/

/-- C1: for a non-`None` API response, `process_fixture` records the type of
the stabilized response, writes the serialization of the stabilized
response (not of the raw one) to the fixture path, and returns the
stabilized response. -/
theorem process_fixture_uses_stabilized (self : FixtureGenerationOrchestrator)
    (fs : FileSystem) (category name : String) (response₀ : FixtureAPIResult) :
    (process_fixture self fs category name (.ok (some response₀))).2.2 =
      some (self.field_stabilizer.stabilize (truncateResponse self.limit response₀)) ∧
    (process_fixture self fs category name (.ok (some response₀))).1.type_mapping_collector =
      record_type_mapping self.type_mapping_collector
        (self.field_stabilizer.stabilize (truncateResponse self.limit response₀))
        category name ∧
    (process_fixture self fs category name (.ok (some response₀))).2.1
        (fixturePathOf category name) =
      .readable
        (jsonDumps (to_dict_for_fixture
          (self.field_stabilizer.stabilize (truncateResponse self.limit response₀))) ++ "\n") := by
  refine ⟨rfl, rfl, ?_⟩
  simp [process_fixture, save_fixture_data, save_file]

/-! ## C8: list responses are truncated to the limit, non-lists are not -/

/-- C8: a list response is cut to its first `self.limit` elements (a prefix
of the original list) before stabilization, recording, saving and
returning, the orchestrator is initialized with limit `FIXTURE_LIMIT = 1`,
and a non-list response is passed through whole. -/
theorem process_fixture_truncates (self : FixtureGenerationOrchestrator)
    (fs : FileSystem) (category name : String) :
    (∀ xs : List PyObj,
      (process_fixture self fs category name (.ok (some (.list xs)))).2.2 =
        some (.list ((xs.take self.limit).map (stabilizeObj self.field_stabilizer))) ∧
      (xs.take self.limit).length ≤ self.limit ∧
      ∃ t, xs = xs.take self.limit ++ t) ∧
    (∀ o : PyObj,
      (process_fixture self fs category name (.ok (some (.single o)))).2.2 =
        some (.single (stabilizeObj self.field_stabilizer o))) ∧
    (∀ stab : FieldStabilizer,
      (FixtureGenerationOrchestrator.init stab).limit = FIXTURE_LIMIT) ∧
    FIXTURE_LIMIT = 1 := by
  refine ⟨fun xs => ⟨rfl, ?_, ⟨xs.drop self.limit, (List.take_append_drop _ _).symm⟩⟩,
    fun o => rfl, fun stab => rfl, rfl⟩
  exact List.length_take_le self.limit xs

/-! ## C6: type mapping recording -/

theorem dictLookup_insert_self {A : Type} (m : List (String × A)) (k : String) (v : A) :
    dictLookup (dictInsert m k v) k = some v := by
  induction m with
  | nil => simp [dictInsert, dictLookup]
  | cons p t ih =>
      obtain ⟨k', v'⟩ := p
      by_cases h : k' = k
      · simp [dictInsert, h, dictLookup]
      · simp [dictInsert, h, dictLookup, ih]

theorem dictInsert_keys_mem {A : Type} (m : List (String × A)) (k a : String) (v : A)
    (h : a ∈ (dictInsert m k v).map Prod.fst) : a ∈ m.map Prod.fst ∨ a = k := by
  induction m with
  | nil =>
      simp [dictInsert] at h
      exact Or.inr h
  | cons p t ih =>
      obtain ⟨k', v'⟩ := p
      by_cases hk : k' = k
      · rw [show dictInsert ((k', v') :: t) k v = (k, v) :: t from by
            simp [dictInsert, hk]] at h
        rw [List.map_cons] at h
        rcases List.mem_cons.mp h with h | h
        · exact Or.inr h
        · exact Or.inl (by rw [List.map_cons]; exact List.mem_cons_of_mem _ h)
      · rw [show dictInsert ((k', v') :: t) k v = (k', v') :: dictInsert t k v from by
            simp [dictInsert, hk]] at h
        rw [List.map_cons] at h
        rcases List.mem_cons.mp h with h | h
        · exact Or.inl (by rw [List.map_cons, h]; exact List.mem_cons_self _ _)
        · rcases ih h with h' | h'
          · exact Or.inl (by rw [List.map_cons]; exact List.mem_cons_of_mem _ h')
          · exact Or.inr h'

theorem dictInsert_keys_nodup {A : Type} (m : List (String × A)) (k : String) (v : A)
    (h : (m.map Prod.fst).Nodup) : ((dictInsert m k v).map Prod.fst).Nodup := by
  induction m with
  | nil => simp [dictInsert]
  | cons p t ih =>
      obtain ⟨k', v'⟩ := p
      rw [List.map_cons, List.nodup_cons] at h
      obtain ⟨hk'nin, hnd⟩ := h
      by_cases hk : k' = k
      · subst hk
        rw [show dictInsert ((k', v') :: t) k' v = (k', v) :: t from by simp [dictInsert]]
        rw [List.map_cons, List.nodup_cons]
        exact ⟨hk'nin, hnd⟩
      · rw [show dictInsert ((k', v') :: t) k v = (k', v') :: dictInsert t k v from by
            simp [dictInsert, hk]]
        rw [List.map_cons, List.nodup_cons]
        refine ⟨?_, ih hnd⟩
        intro habs
        rcases dictInsert_keys_mem t k k' v habs with h' | h'
        · exact hk'nin h'
        · exact hk h'

theorem dictLookup_none_of_not_mem {A : Type} (m : List (String × A)) (k : String)
    (h : k ∉ m.map Prod.fst) : dictLookup m k = none := by
  induction m with
  | nil => rfl
  | cons p t ih =>
      obtain ⟨k', v'⟩ := p
      rw [List.map_cons] at h
      have h1 : k ≠ k' := fun he => h (he ▸ List.mem_cons_self _ _)
      have h2 : k ∉ t.map Prod.fst := fun hm => h (List.mem_cons_of_mem _ hm)
      show (if k' = k then some v' else dictLookup t k) = none
      rw [if_neg (fun he => h1 he.symm), ih h2]

theorem filterMap_type_keys_mem (m : List (String × FixturePathToTypeMapping)) (a : String)
    (h : a ∈ (m.filterMap (fun p =>
        match p.2.fixture_type with
        | some t => some (p.1, t)
        | none => none)).map Prod.fst) :
    a ∈ m.map Prod.fst := by
  induction m with
  | nil => simp at h
  | cons p t ih =>
      obtain ⟨k', mp⟩ := p
      rw [List.map_cons]
      rw [List.filterMap_cons] at h
      cases hft : mp.fixture_type with
      | none =>
          simp only [hft] at h
          exact List.mem_cons_of_mem _ (ih h)
      | some ty =>
          simp only [hft] at h
          rw [List.map_cons] at h
          rcases List.mem_cons.mp h with h | h
          · rw [show a = k' from h]
            exact List.mem_cons_self _ _
          · exact List.mem_cons_of_mem _ (ih h)

theorem lookup_filterMap_type (m : List (String × FixturePathToTypeMapping))
    (hnd : (m.map Prod.fst).Nodup) (k : String) :
    dictLookup (m.filterMap (fun p =>
        match p.2.fixture_type with
        | some t => some (p.1, t)
        | none => none)) k =
      (dictLookup m k).bind (fun mp => mp.fixture_type) := by
  induction m with
  | nil => rfl
  | cons p t ih =>
      obtain ⟨k', mp⟩ := p
      rw [List.map_cons, List.nodup_cons] at hnd
      obtain ⟨hk'nin, hnd⟩ := hnd
      rw [List.filterMap_cons]
      have hhead : dictLookup ((k', mp) :: t) k =
          if k' = k then some mp else dictLookup t k := rfl
      cases hft : mp.fixture_type with
      | none =>
          simp only [hft]
          by_cases hk : k' = k
          · subst hk
            rw [dictLookup_none_of_not_mem _ _
              (fun habs => hk'nin (filterMap_type_keys_mem t k' habs))]
            rw [hhead, if_pos rfl]
            simp [hft]
          · rw [hhead, if_neg hk]
            exact ih hnd
      | some ty =>
          simp only [hft]
          by_cases hk : k' = k
          · subst hk
            rw [hhead, if_pos rfl]
            show (if k' = k' then some ty else _) = _
            rw [if_pos rfl]
            simp [hft]
          · rw [hhead, if_neg hk]
            show (if k' = k then some ty else _) = _
            rw [if_neg hk]
            exact ih hnd

/-- C6: `record_type_mapping` stores, under `"category/name.json"`, the
auto-detected type — the response's own type for a non-list, the first
element's type for a non-empty list of `BaseModel`s, and nothing for an
empty list — and `get_all_mappings` maps exactly the keys with a recorded
type to that type. -/
theorem record_type_mapping_spec (collector : FixtureTypeMappingCollector)
    (response : FixtureAPIResult) (category name : String)
    (hnd : (collector.fixture_mappings.map Prod.fst).Nodup) :
    (dictLookup (record_type_mapping collector response category name).fixture_mappings
        (category ++ "/" ++ name ++ ".json") =
      some { key := category ++ "/" ++ name ++ ".json",
             fixture_type := auto_detect_fixture_type response }) ∧
    (∀ o, response = .single o → auto_detect_fixture_type response = some o.ty) ∧
    (∀ x xs, response = .list (x :: xs) → x.isBaseModel = true →
      auto_detect_fixture_type response = some x.ty) ∧
    (response = .list [] → auto_detect_fixture_type response = none) ∧
    (∀ k, dictLookup (get_all_mappings (record_type_mapping collector response category name)) k =
      (dictLookup (record_type_mapping collector response category name).fixture_mappings k).bind
        (fun mp => mp.fixture_type)) := by
  refine ⟨dictLookup_insert_self _ _ _, ?_, ?_, ?_, ?_⟩
  · rintro o rfl
    rfl
  · rintro x xs rfl hb
    simp [auto_detect_fixture_type, hb]
  · rintro rfl
    rfl
  · intro k
    exact lookup_filterMap_type _ (dictInsert_keys_nodup _ _ _ hnd) k

/-- Witness for C6 at a concrete collector state and response. -/
theorem record_type_mapping_spec_witness :
    (dictLookup (record_type_mapping ⟨[]⟩
        (.single ⟨"WatchData", true, .null⟩) "tracks" "watch_data").fixture_mappings
        ("tracks" ++ "/" ++ "watch_data" ++ ".json") =
      some { key := "tracks" ++ "/" ++ "watch_data" ++ ".json",
             fixture_type := auto_detect_fixture_type (.single ⟨"WatchData", true, .null⟩) }) ∧
    (∀ o, FixtureAPIResult.single ⟨"WatchData", true, .null⟩ = .single o →
      auto_detect_fixture_type (.single ⟨"WatchData", true, .null⟩) = some o.ty) ∧
    (∀ x xs, FixtureAPIResult.single ⟨"WatchData", true, .null⟩ = .list (x :: xs) →
      x.isBaseModel = true →
      auto_detect_fixture_type (.single ⟨"WatchData", true, .null⟩) = some x.ty) ∧
    (FixtureAPIResult.single ⟨"WatchData", true, .null⟩ = .list [] →
      auto_detect_fixture_type (.single ⟨"WatchData", true, .null⟩) = none) ∧
    (∀ k, dictLookup (get_all_mappings (record_type_mapping ⟨[]⟩
        (.single ⟨"WatchData", true, .null⟩) "tracks" "watch_data")) k =
      (dictLookup (record_type_mapping ⟨[]⟩
          (.single ⟨"WatchData", true, .null⟩) "tracks" "watch_data").fixture_mappings k).bind
        (fun mp => mp.fixture_type)) :=
  record_type_mapping_spec ⟨[]⟩ (.single ⟨"WatchData", true, .null⟩) "tracks" "watch_data"
    (by simp)

/-! ## C3: the seven fixed categories -/

/-- C3: every `process_fixture` call made by `collect_all_fixtures` uses one
of the seven category literals, and the categories appear in exactly the
fixed order tracks, playlists, albums, artists, search, history, stream
(the stream call is made precisely when a best audio exists). -/
theorem collect_all_fixtures_categories (audios : List AudioObj) :
    (∀ p ∈ collect_all_fixtures_calls audios, is_fixture_category p.1 = true) ∧
    ((collect_all_fixtures_calls audios).map Prod.fst).dedup =
      (if (select_best_audio audios).isSome then fixtureCategories
       else fixtureCategories.take 6) := by
  cases h : select_best_audio audios with
  | none =>
      refine ⟨?_, ?_⟩ <;>
        simp only [collect_all_fixtures_calls, collect_stream_fixtures_calls, h] <;>
        decide
  | some a =>
      refine ⟨?_, ?_⟩ <;>
        simp only [collect_all_fixtures_calls, collect_stream_fixtures_calls, h,
          Option.isSome_some, if_true]
      · decide
      · decide

/-- Witness for C3 at a one-audio client state. -/
theorem collect_all_fixtures_categories_witness :
    is_fixture_category "stream" = true ∧
    ((collect_all_fixtures_calls [⟨true, 1⟩]).map Prod.fst).dedup = fixtureCategories := by
  refine ⟨(collect_all_fixtures_categories [⟨true, 1⟩]).1 ("stream", "stream_data") ?_, ?_⟩
  · decide
  · exact ((collect_all_fixtures_categories [⟨true, 1⟩]).2).trans (by decide)

/-! ## C4: one API call at a time, with a fixed delay first -/

theorem trace_blocks_props (calls : List (String × String)) :
    (∀ i c n, ((calls.map (fun p => process_fixture_trace p.1 p.2)).flatten)[i]? =
        some (.apiStart c n) →
      1 ≤ i ∧ ((calls.map (fun p => process_fixture_trace p.1 p.2)).flatten)[i - 1]? =
        some (.sleep API_CALL_DELAY_SECONDS)) ∧
    (∀ m, inFlight (((calls.map (fun p => process_fixture_trace p.1 p.2)).flatten).take m) ≤ 1) := by
  induction calls with
  | nil =>
      constructor
      · intro i c n h
        simp at h
      · intro m
        simp [inFlight]
  | cons p rest ih =>
      obtain ⟨c₀, n₀⟩ := p
      have hfl : (((c₀, n₀) :: rest).map (fun p => process_fixture_trace p.1 p.2)).flatten =
          .sleep API_CALL_DELAY_SECONDS :: .apiStart c₀ n₀ :: .apiEnd c₀ n₀ ::
            (rest.map (fun p => process_fixture_trace p.1 p.2)).flatten := by
        simp [process_fixture_trace]
      rw [hfl]
      constructor
      · intro i c n h
        cases i with
        | zero => simp at h
        | succ i1 =>
            cases i1 with
            | zero =>
                refine ⟨le_refl 1, ?_⟩
                simp
            | succ i2 =>
                cases i2 with
                | zero => simp at h
                | succ j =>
                    simp only [List.getElem?_cons_succ] at h
                    have hj := ih.1 j c n h
                    refine ⟨by omega, ?_⟩
                    rw [show j + 1 + 1 + 1 - 1 = (j - 1) + 1 + 1 + 1 from by omega]
                    simp only [List.getElem?_cons_succ]
                    exact hj.2
      · intro m
        cases m with
        | zero => simp [inFlight]
        | succ m1 =>
            cases m1 with
            | zero => simp [inFlight]
            | succ m2 =>
                cases m2 with
                | zero => simp [inFlight]
                | succ m3 =>
                    simp only [List.take_succ_cons]
                    show inFlight (_ :: _ :: _ :: _) ≤ 1
                    have hred : ∀ l : List ApiEvent,
                        inFlight (.sleep API_CALL_DELAY_SECONDS :: .apiStart c₀ n₀ ::
                          .apiEnd c₀ n₀ :: l) = inFlight l := fun l => rfl
                    rw [hred]
                    exact ih.2 m3

/-- C4: in the trace of a full run, every API call start is immediately
preceded by an awaited `asyncio.sleep(API_CALL_DELAY_SECONDS)` (1.0
second), and at most one API call is in flight at any prefix of the trace:
calls are strictly serialized. -/
theorem api_calls_serialized (audios : List AudioObj) :
    (∀ i c n, (collect_all_fixtures_trace audios)[i]? = some (.apiStart c n) →
      1 ≤ i ∧ (collect_all_fixtures_trace audios)[i - 1]? =
        some (.sleep API_CALL_DELAY_SECONDS)) ∧
    (∀ m, inFlight ((collect_all_fixtures_trace audios).take m) ≤ 1) ∧
    API_CALL_DELAY_SECONDS = 1 :=
  ⟨(trace_blocks_props (collect_all_fixtures_calls audios)).1,
   (trace_blocks_props (collect_all_fixtures_calls audios)).2, rfl⟩

/-- Witness for C4: the first API call of a concrete run indeed has the
fixed sleep right before it. -/
theorem api_calls_serialized_witness :
    1 ≤ 1 ∧ (collect_all_fixtures_trace [])[1 - 1]? =
      some (.sleep API_CALL_DELAY_SECONDS) :=
  (api_calls_serialized []).1 1 "tracks" "own_videos" (by decide)

/-! ## C7 groundwork: the lexicographic orders -/

theorem lexLeB_refl (a : List Char) : lexLeB a a = true := by
  induction a with
  | nil => rfl
  | cons c t ih => simp [lexLeB, lt_irrefl, ih]

theorem lexLeB_total (a b : List Char) : lexLeB a b = true ∨ lexLeB b a = true := by
  induction a generalizing b with
  | nil => exact Or.inl rfl
  | cons c t ih =>
      cases b with
      | nil => exact Or.inr rfl
      | cons d u =>
          rcases lt_trichotomy c d with h | h | h
          · exact Or.inl (by simp [lexLeB, h])
          · subst h
            rcases ih u with h' | h'
            · exact Or.inl (by simp [lexLeB, lt_irrefl, h'])
            · exact Or.inr (by simp [lexLeB, lt_irrefl, h'])
          · exact Or.inr (by simp [lexLeB, h])

theorem lexLeB_trans (a b c : List Char) (h₁ : lexLeB a b = true)
    (h₂ : lexLeB b c = true) : lexLeB a c = true := by
  induction a generalizing b c with
  | nil => rfl
  | cons x t ih =>
      cases b with
      | nil => simp [lexLeB] at h₁
      | cons y u =>
          cases c with
          | nil => simp [lexLeB] at h₂
          | cons z v =>
              by_cases hxy : x < y
              · by_cases hyz : y < z
                · simp [lexLeB, lt_trans hxy hyz]
                · by_cases hyz' : y = z
                  · subst hyz'
                    simp [lexLeB, hxy]
                  · simp [lexLeB, hyz, hyz'] at h₂
              · by_cases hxy' : x = y
                · subst hxy'
                  simp only [lexLeB, if_neg (lt_irrefl x), if_pos rfl] at h₁
                  by_cases hxz : x < z
                  · simp [lexLeB, hxz]
                  · by_cases hxz' : x = z
                    · subst hxz'
                      simp only [lexLeB, if_neg (lt_irrefl x), if_pos rfl] at h₂
                      simp only [lexLeB, if_neg (lt_irrefl x), if_pos rfl]
                      exact ih u v h₁ h₂
                    · simp [lexLeB, hxz, hxz'] at h₂
                · simp [lexLeB, hxy, hxy'] at h₁

theorem lexLeB_antisymm (a b : List Char) (h₁ : lexLeB a b = true)
    (h₂ : lexLeB b a = true) : a = b := by
  induction a generalizing b with
  | nil =>
      cases b with
      | nil => rfl
      | cons d u => simp [lexLeB] at h₂
  | cons c t ih =>
      cases b with
      | nil => simp [lexLeB] at h₁
      | cons d u =>
          by_cases hcd : c < d
          · have hdc : ¬d < c := asymm hcd
            have hdc' : ¬d = c := fun h => absurd (h ▸ hcd) (lt_irrefl c)
            simp [lexLeB, hdc, hdc'] at h₂
          · by_cases hcd' : c = d
            · subst hcd'
              simp only [lexLeB, if_neg (lt_irrefl c), if_pos rfl] at h₁ h₂
              rw [ih u h₁ h₂]
            · simp [lexLeB, hcd, hcd'] at h₁

theorem lexLtB_asymm (a b : List Char) (h₁ : lexLtB a b = true)
    (h₂ : lexLtB b a = true) : False := by
  induction a generalizing b with
  | nil =>
      cases b with
      | nil => simp [lexLtB] at h₁
      | cons d u => simp [lexLtB] at h₂
  | cons c t ih =>
      cases b with
      | nil => simp [lexLtB] at h₁
      | cons d u =>
          by_cases hcd : c < d
          · have hdc : ¬d < c := asymm hcd
            have hdc' : ¬d = c := fun h => absurd (h ▸ hcd) (lt_irrefl c)
            simp [lexLtB, hdc, hdc'] at h₂
          · by_cases hcd' : c = d
            · subst hcd'
              simp only [lexLtB, if_neg (lt_irrefl c), if_pos rfl] at h₁ h₂
              exact ih u h₁ h₂
            · simp [lexLtB, hcd, hcd'] at h₁

theorem lexLtB_trans (a b c : List Char) (h₁ : lexLtB a b = true)
    (h₂ : lexLtB b c = true) : lexLtB a c = true := by
  induction a generalizing b c with
  | nil =>
      cases b with
      | nil => simp [lexLtB] at h₁
      | cons y u =>
          cases c with
          | nil => simp [lexLtB] at h₂
          | cons z v => rfl
  | cons x t ih =>
      cases b with
      | nil => simp [lexLtB] at h₁
      | cons y u =>
          cases c with
          | nil => simp [lexLtB] at h₂
          | cons z v =>
              by_cases hxy : x < y
              · by_cases hyz : y < z
                · simp [lexLtB, lt_trans hxy hyz]
                · by_cases hyz' : y = z
                  · subst hyz'
                    simp [lexLtB, hxy]
                  · simp [lexLtB, hyz, hyz'] at h₂
              · by_cases hxy' : x = y
                · subst hxy'
                  simp only [lexLtB, if_neg (lt_irrefl x), if_pos rfl] at h₁
                  by_cases hxz : x < z
                  · simp [lexLtB, hxz]
                  · by_cases hxz' : x = z
                    · subst hxz'
                      simp only [lexLtB, if_neg (lt_irrefl x), if_pos rfl] at h₂
                      simp only [lexLtB, if_neg (lt_irrefl x), if_pos rfl]
                      exact ih u v h₁ h₂
                    · simp [lexLtB, hxz, hxz'] at h₂
                · simp [lexLtB, hxy, hxy'] at h₁

theorem lex_trichotomy (a b : List Char) :
    a = b ∨ lexLtB a b = true ∨ lexLtB b a = true := by
  induction a generalizing b with
  | nil =>
      cases b with
      | nil => exact Or.inl rfl
      | cons d u => exact Or.inr (Or.inl rfl)
  | cons c t ih =>
      cases b with
      | nil => exact Or.inr (Or.inr rfl)
      | cons d u =>
          rcases lt_trichotomy c d with h | h | h
          · exact Or.inr (Or.inl (by simp [lexLtB, h]))
          · subst h
            rcases ih u with h' | h' | h'
            · exact Or.inl (by rw [h'])
            · exact Or.inr (Or.inl (by simp [lexLtB, lt_irrefl, h']))
            · exact Or.inr (Or.inr (by simp [lexLtB, lt_irrefl, h']))
          · exact Or.inr (Or.inr (by simp [lexLtB, h]))

/-! ## C7 groundwork: the sort-key orders are total preorders -/

theorem sortKeyLeB_total (x y : JsonValue) :
    sortKeyLeB x y = true ∨ sortKeyLeB y x = true := by
  unfold sortKeyLeB
  by_cases h : pyTypeNameChars x = pyTypeNameChars y
  · rw [if_pos h, if_pos h.symm]
    exact lexLeB_total _ _
  · rw [if_neg h, if_neg (fun h' => h h'.symm)]
    rcases lex_trichotomy (pyTypeNameChars x) (pyTypeNameChars y) with h' | h' | h'
    · exact absurd h' h
    · exact Or.inl h'
    · exact Or.inr h'

theorem sortKeyLeB_trans (x y z : JsonValue) (h₁ : sortKeyLeB x y = true)
    (h₂ : sortKeyLeB y z = true) : sortKeyLeB x z = true := by
  unfold sortKeyLeB at h₁ h₂ ⊢
  by_cases hxy : pyTypeNameChars x = pyTypeNameChars y
  · rw [if_pos hxy] at h₁
    by_cases hyz : pyTypeNameChars y = pyTypeNameChars z
    · rw [if_pos hyz] at h₂
      rw [if_pos (hxy.trans hyz)]
      exact lexLeB_trans _ _ _ h₁ h₂
    · rw [if_neg hyz] at h₂
      rw [if_neg (fun h => hyz (hxy.symm.trans h)), hxy]
      exact h₂
  · rw [if_neg hxy] at h₁
    by_cases hyz : pyTypeNameChars y = pyTypeNameChars z
    · rw [if_neg (fun h => hxy (h.trans hyz.symm)), ← hyz]
      exact h₁
    · rw [if_neg hyz] at h₂
      have hxz : ¬pyTypeNameChars x = pyTypeNameChars z := by
        intro h
        exact lexLtB_asymm _ _ h₁ (h ▸ h₂)
      rw [if_neg hxz]
      exact lexLtB_trans _ _ _ h₁ h₂

theorem sortKeyLeB_antisymm_key (x y : JsonValue) (h₁ : sortKeyLeB x y = true)
    (h₂ : sortKeyLeB y x = true) :
    pyTypeNameChars x = pyTypeNameChars y ∧ pyStrChars x = pyStrChars y := by
  unfold sortKeyLeB at h₁ h₂
  by_cases hxy : pyTypeNameChars x = pyTypeNameChars y
  · rw [if_pos hxy] at h₁
    rw [if_pos hxy.symm] at h₂
    exact ⟨hxy, lexLeB_antisymm _ _ h₁ h₂⟩
  · rw [if_neg hxy] at h₁
    rw [if_neg (fun h => hxy h.symm)] at h₂
    exact absurd (lexLtB_asymm _ _ h₁ h₂) not_false

theorem entryKeyLeB_total (a b : String × JsonValue) :
    entryKeyLeB a b = true ∨ entryKeyLeB b a = true :=
  lexLeB_total a.1.data b.1.data

theorem entryKeyLeB_trans (a b c : String × JsonValue) (h₁ : entryKeyLeB a b = true)
    (h₂ : entryKeyLeB b c = true) : entryKeyLeB a c = true :=
  lexLeB_trans _ _ _ h₁ h₂

theorem entryKeyLeB_antisymm_key (a b : String × JsonValue)
    (h₁ : entryKeyLeB a b = true) (h₂ : entryKeyLeB b a = true) : a.1 = b.1 := by
  have h := lexLeB_antisymm _ _ h₁ h₂
  exact String.ext h

/-! ## C7 groundwork: decimal digits -/

theorem natCharsAux_irrel (n : Nat) : ∀ f₁ f₂, n < f₁ → n < f₂ →
    natCharsAux f₁ n = natCharsAux f₂ n := by
  induction n using Nat.strong_induction_on with
  | _ n ih =>
      intro f₁ f₂ h₁ h₂
      match f₁, f₂ with
      | g₁ + 1, g₂ + 1 =>
          show (if n < 10 then _ else _) = (if n < 10 then _ else _)
          by_cases hn : n < 10
          · rw [if_pos hn, if_pos hn]
          · rw [if_neg hn, if_neg hn]
            have hdiv : n / 10 < n := Nat.div_lt_self (by omega) (by omega)
            rw [ih (n / 10) hdiv g₁ g₂ (by omega) (by omega)]

theorem natChars_eq (n : Nat) : natChars n =
    if n < 10 then [digitChar n]
    else natChars (n / 10) ++ [digitChar (n % 10)] := by
  show natCharsAux (n + 1) n = _
  by_cases hn : n < 10
  · rw [if_pos hn]
    show (if n < 10 then _ else _) = _
    rw [if_pos hn]
  · rw [if_neg hn]
    show (if n < 10 then _ else _) = _
    rw [if_neg hn]
    have hdiv : n / 10 < n := Nat.div_lt_self (by omega) (by omega)
    rw [natCharsAux_irrel (n / 10) n (n / 10 + 1) (by omega) (by omega)]
    rfl

theorem natChars_ne_nil (n : Nat) : natChars n ≠ [] := by
  rw [natChars_eq]
  by_cases hn : n < 10
  · rw [if_pos hn]
    simp
  · rw [if_neg hn]
    simp

theorem digitChar_isDigit (d : Nat) (h : d < 10) : isDigitB (digitChar d) = true := by
  interval_cases d <;> decide

theorem digitChar_inj (d₁ d₂ : Nat) (h₁ : d₁ < 10) (h₂ : d₂ < 10)
    (h : digitChar d₁ = digitChar d₂) : d₁ = d₂ := by
  interval_cases d₁ <;> interval_cases d₂ <;> first | rfl | (exfalso; revert h; decide)

theorem natChars_all_digits (n : Nat) : ∀ c ∈ natChars n, isDigitB c = true := by
  induction n using Nat.strong_induction_on with
  | _ n ih =>
      rw [natChars_eq]
      by_cases hn : n < 10
      · rw [if_pos hn]
        intro c hc
        rw [List.mem_singleton] at hc
        rw [hc]
        exact digitChar_isDigit n hn
      · rw [if_neg hn]
        intro c hc
        rcases List.mem_append.mp hc with hc | hc
        · exact ih (n / 10) (Nat.div_lt_self (by omega) (by omega)) c hc
        · rw [List.mem_singleton] at hc
          rw [hc]
          exact digitChar_isDigit (n % 10) (Nat.mod_lt n (by omega))

theorem digitChar_toNat (d : Nat) (h : d < 10) : (digitChar d).toNat = 48 + d := by
  interval_cases d <;> decide

theorem valOfDigits_append_single (ds : List Char) (c : Char) :
    valOfDigits (ds ++ [c]) = valOfDigits ds * 10 + (c.toNat - 48) := by
  unfold valOfDigits
  rw [List.foldl_append]
  rfl

theorem valOfDigits_natChars (n : Nat) : valOfDigits (natChars n) = n := by
  induction n using Nat.strong_induction_on with
  | _ n ih =>
      rw [natChars_eq]
      by_cases hn : n < 10
      · rw [if_pos hn]
        show 0 * 10 + ((digitChar n).toNat - 48) = n
        rw [digitChar_toNat n hn]
        omega
      · rw [if_neg hn]
        rw [valOfDigits_append_single]
        rw [ih (n / 10) (Nat.div_lt_self (by omega) (by omega))]
        rw [digitChar_toNat (n % 10) (Nat.mod_lt n (by omega))]
        omega

theorem natChars_inj (n₁ n₂ : Nat) (h : natChars n₁ = natChars n₂) : n₁ = n₂ := by
  have := valOfDigits_natChars n₁
  rw [h, valOfDigits_natChars n₂] at this
  exact this.symm

theorem digits_append_det : ∀ d₁ : List Char, (∀ c ∈ d₁, isDigitB c = true) →
    ∀ d₂ r₁ r₂ : List Char, (∀ c ∈ d₂, isDigitB c = true) →
    headDigitB r₁ = false → headDigitB r₂ = false →
    d₁ ++ r₁ = d₂ ++ r₂ → d₁ = d₂ ∧ r₁ = r₂ := by
  intro d₁
  induction d₁ with
  | nil =>
      intro _ d₂ r₁ r₂ hd₂ hr₁ hr₂ h
      cases d₂ with
      | nil => exact ⟨rfl, h⟩
      | cons c t =>
          rw [List.nil_append] at h
          rw [h] at hr₁
          have hfalse : isDigitB c = false := hr₁
          have htrue := hd₂ c (List.mem_cons_self _ _)
          rw [htrue] at hfalse
          exact absurd hfalse (by decide)
  | cons c₁ t₁ ih =>
      intro hd₁ d₂ r₁ r₂ hd₂ hr₁ hr₂ h
      cases d₂ with
      | nil =>
          rw [List.nil_append] at h
          rw [← h] at hr₂
          have hfalse : isDigitB c₁ = false := hr₂
          have htrue := hd₁ c₁ (List.mem_cons_self _ _)
          rw [htrue] at hfalse
          exact absurd hfalse (by decide)
      | cons c₂ t₂ =>
          rw [List.cons_append, List.cons_append] at h
          injection h with hc ht
          obtain ⟨hd, hr⟩ := ih (fun c hc' => hd₁ c (List.mem_cons_of_mem _ hc'))
            t₂ r₁ r₂ (fun c hc' => hd₂ c (List.mem_cons_of_mem _ hc')) hr₁ hr₂ ht
          exact ⟨by rw [hc, hd], hr⟩

theorem intChars_head_digit_of_nonneg (n : Nat) :
    ∃ c t, natChars n = c :: t ∧ isDigitB c = true := by
  cases hc : natChars n with
  | nil => exact absurd hc (natChars_ne_nil n)
  | cons c t =>
      exact ⟨c, t, rfl, natChars_all_digits n c (by rw [hc]; exact List.mem_cons_self _ _)⟩

theorem intChars_det (i₁ i₂ : Int) (r₁ r₂ : List Char) (hr₁ : headDigitB r₁ = false)
    (hr₂ : headDigitB r₂ = false) (h : intChars i₁ ++ r₁ = intChars i₂ ++ r₂) :
    i₁ = i₂ ∧ r₁ = r₂ := by
  unfold intChars at h
  by_cases h₁ : i₁ < 0 <;> by_cases h₂ : i₂ < 0
  · rw [if_pos h₁, if_pos h₂, List.cons_append, List.cons_append] at h
    injection h with _ ht
    obtain ⟨hd, hr⟩ := digits_append_det _ (natChars_all_digits _) _ _ _
      (natChars_all_digits _) hr₁ hr₂ ht
    have := natChars_inj _ _ hd
    exact ⟨by omega, hr⟩
  · rw [if_pos h₁, if_neg h₂, List.cons_append] at h
    obtain ⟨c, t, hct, hcd⟩ := intChars_head_digit_of_nonneg i₂.toNat
    rw [hct, List.cons_append] at h
    injection h with hc _
    rw [← hc] at hcd
    exact absurd hcd (by decide)
  · rw [if_neg h₁, if_pos h₂, List.cons_append] at h
    obtain ⟨c, t, hct, hcd⟩ := intChars_head_digit_of_nonneg i₁.toNat
    rw [hct, List.cons_append] at h
    injection h with hc _
    rw [hc] at hcd
    exact absurd hcd (by decide)
  · rw [if_neg h₁, if_neg h₂] at h
    obtain ⟨hd, hr⟩ := digits_append_det _ (natChars_all_digits _) _ _ _
      (natChars_all_digits _) hr₁ hr₂ h
    have := natChars_inj _ _ hd
    exact ⟨by omega, hr⟩

/-! ## C7 groundwork: string-escape determinism -/

theorem charToNat_inj (c₁ c₂ : Char) (h : c₁.toNat = c₂.toNat) : c₁ = c₂ :=
  Char.ext (UInt32.ext h)

theorem hexDigit_inj (a b : Nat) (ha : a < 16) (hb : b < 16)
    (h : hexDigit a = hexDigit b) : a = b := by
  interval_cases a <;> interval_cases b <;> first | rfl | (exfalso; revert h; decide)

theorem escChar_shape (q c : Char) :
    (escChar q c = ['\\', c] ∧ (c = q ∨ c = '\\')) ∨
    (escChar q c = ['\\', 't'] ∧ c = '\t') ∨
    (escChar q c = ['\\', 'n'] ∧ c = '\n') ∨
    (escChar q c = ['\\', 'r'] ∧ c = '\r') ∨
    (escChar q c = ['\\', 'x', hexDigit (c.toNat / 16), hexDigit (c.toNat % 16)] ∧
      (c.toNat < 32 ∨ c.toNat = 127) ∧ ¬(c = q ∨ c = '\\')) ∨
    (escChar q c = [c] ∧ ¬(c = q ∨ c = '\\') ∧
      ¬(c.toNat < 32 ∨ c.toNat = 127)) := by
  unfold escChar
  split_ifs with h1 h2 h3 h4 h5
  · exact Or.inl ⟨rfl, h1⟩
  · exact Or.inr (Or.inl ⟨rfl, h2⟩)
  · exact Or.inr (Or.inr (Or.inl ⟨rfl, h3⟩))
  · exact Or.inr (Or.inr (Or.inr (Or.inl ⟨rfl, h4⟩)))
  · exact Or.inr (Or.inr (Or.inr (Or.inr (Or.inl ⟨rfl, h5, h1⟩))))
  · exact Or.inr (Or.inr (Or.inr (Or.inr (Or.inr ⟨rfl, h1, h5⟩))))

theorem escChar_det (q c₁ c₂ : Char) (hq : q = '\'' ∨ q = '"') (r₁ r₂ : List Char)
    (h : escChar q c₁ ++ r₁ = escChar q c₂ ++ r₂) : c₁ = c₂ ∧ r₁ = r₂ := by
  have hqf : q ≠ 't' ∧ q ≠ 'n' ∧ q ≠ 'r' ∧ q ≠ 'x' ∧ q ≠ '\\' := by
    rcases hq with e | e <;> subst e <;>
      exact ⟨by decide, by decide, by decide, by decide, by decide⟩
  have hAk : ∀ c k : Char, (c = q ∨ c = '\\') → c = k → k ≠ q → k ≠ '\\' → False := by
    intro c k p hck hk1 hk2
    rcases p with p | p
    · exact hk1 (hck.symm.trans p)
    · exact hk2 (hck.symm.trans p)
  rcases escChar_shape q c₁ with ⟨e₁, p₁⟩ | ⟨e₁, p₁⟩ | ⟨e₁, p₁⟩ | ⟨e₁, p₁⟩ |
      ⟨e₁, p₁, p₁'⟩ | ⟨e₁, p₁', p₁''⟩ <;>
    rcases escChar_shape q c₂ with ⟨e₂, p₂⟩ | ⟨e₂, p₂⟩ | ⟨e₂, p₂⟩ | ⟨e₂, p₂⟩ |
      ⟨e₂, p₂, p₂'⟩ | ⟨e₂, p₂', p₂''⟩ <;>
    rw [e₁, e₂] at h <;>
    simp only [List.cons_append, List.nil_append, List.cons.injEq, eq_self_iff_true,
      true_and] at h
  · exact h
  · exact absurd (hAk c₁ 't' p₁ h.1 hqf.1.symm (by decide)) not_false
  · exact absurd (hAk c₁ 'n' p₁ h.1 hqf.2.1.symm (by decide)) not_false
  · exact absurd (hAk c₁ 'r' p₁ h.1 hqf.2.2.1.symm (by decide)) not_false
  · exact absurd (hAk c₁ 'x' p₁ h.1 hqf.2.2.2.1.symm (by decide)) not_false
  · exact absurd (Or.inr h.1.symm) p₂'
  · exact absurd (hAk c₂ 't' p₂ h.1.symm hqf.1.symm (by decide)) not_false
  · exact ⟨p₁.trans p₂.symm, h⟩
  · exact absurd h.1 (by decide)
  · exact absurd h.1 (by decide)
  · exact absurd h.1 (by decide)
  · exact absurd (Or.inr h.1.symm) p₂'
  · exact absurd (hAk c₂ 'n' p₂ h.1.symm hqf.2.1.symm (by decide)) not_false
  · exact absurd h.1 (by decide)
  · exact ⟨p₁.trans p₂.symm, h⟩
  · exact absurd h.1 (by decide)
  · exact absurd h.1 (by decide)
  · exact absurd (Or.inr h.1.symm) p₂'
  · exact absurd (hAk c₂ 'r' p₂ h.1.symm hqf.2.2.1.symm (by decide)) not_false
  · exact absurd h.1 (by decide)
  · exact absurd h.1 (by decide)
  · exact ⟨p₁.trans p₂.symm, h⟩
  · exact absurd h.1 (by decide)
  · exact absurd (Or.inr h.1.symm) p₂'
  · exact absurd (hAk c₂ 'x' p₂ h.1.symm hqf.2.2.2.1.symm (by decide)) not_false
  · exact absurd h.1.symm (by decide)
  · exact absurd h.1.symm (by decide)
  · exact absurd h.1.symm (by decide)
  · obtain ⟨hh1, hh2, hr⟩ := h
    have hb₁ : c₁.toNat / 16 < 16 := by omega
    have hb₂ : c₂.toNat / 16 < 16 := by omega
    have hd1 := hexDigit_inj _ _ hb₁ hb₂ hh1
    have hd2 := hexDigit_inj _ _ (Nat.mod_lt _ (by omega)) (Nat.mod_lt _ (by omega)) hh2
    exact ⟨charToNat_inj c₁ c₂ (by omega), hr⟩
  · exact absurd (Or.inr h.1.symm) p₂'
  · exact absurd (Or.inr h.1) p₁'
  · exact absurd (Or.inr h.1) p₁'
  · exact absurd (Or.inr h.1) p₁'
  · exact absurd (Or.inr h.1) p₁'
  · exact absurd (Or.inr h.1) p₁'
  · exact h

theorem escChar_head (q c : Char) (hq : q = '\'' ∨ q = '"') :
    ∃ c' t, escChar q c = c' :: t ∧ c' ≠ q := by
  have hbq : ('\\' : Char) ≠ q := by
    rcases hq with e | e <;> subst e <;> decide
  rcases escChar_shape q c with ⟨e, p⟩ | ⟨e, p⟩ | ⟨e, p⟩ | ⟨e, p⟩ |
      ⟨e, p, p'⟩ | ⟨e, p', p''⟩
  · exact ⟨'\\', _, e, hbq⟩
  · exact ⟨'\\', _, e, hbq⟩
  · exact ⟨'\\', _, e, hbq⟩
  · exact ⟨'\\', _, e, hbq⟩
  · exact ⟨'\\', _, e, hbq⟩
  · exact ⟨c, [], e, fun hcq => p' (Or.inl hcq)⟩

theorem escapeStr_det (q : Char) (hq : q = '\'' ∨ q = '"') :
    ∀ s₁ s₂ r₁ r₂ : List Char,
    escapeStr q s₁ ++ q :: r₁ = escapeStr q s₂ ++ q :: r₂ → s₁ = s₂ ∧ r₁ = r₂ := by
  intro s₁
  induction s₁ with
  | nil =>
      intro s₂ r₁ r₂ h
      cases s₂ with
      | nil =>
          rw [show escapeStr q [] = [] from rfl, List.nil_append, List.nil_append] at h
          injection h with _ hr
          exact ⟨rfl, hr⟩
      | cons c t =>
          rw [show escapeStr q [] = [] from rfl, List.nil_append,
            show escapeStr q (c :: t) = escChar q c ++ escapeStr q t from rfl,
            List.append_assoc] at h
          obtain ⟨c', t', he, hne⟩ := escChar_head q c hq
          rw [he, List.cons_append] at h
          injection h with hqc _
          exact absurd hqc.symm hne
  | cons c₁ t₁ ih =>
      intro s₂ r₁ r₂ h
      cases s₂ with
      | nil =>
          rw [show escapeStr q [] = [] from rfl, List.nil_append,
            show escapeStr q (c₁ :: t₁) = escChar q c₁ ++ escapeStr q t₁ from rfl,
            List.append_assoc] at h
          obtain ⟨c', t', he, hne⟩ := escChar_head q c₁ hq
          rw [he, List.cons_append] at h
          injection h with hqc _
          exact absurd hqc hne
      | cons c₂ t₂ =>
          rw [show escapeStr q (c₁ :: t₁) = escChar q c₁ ++ escapeStr q t₁ from rfl,
            show escapeStr q (c₂ :: t₂) = escChar q c₂ ++ escapeStr q t₂ from rfl,
            List.append_assoc, List.append_assoc] at h
          obtain ⟨hc, hrest⟩ := escChar_det q c₁ c₂ hq _ _ h
          obtain ⟨ht, hr⟩ := ih t₂ r₁ r₂ hrest
          exact ⟨by rw [hc, ht], hr⟩

theorem quoteFor_quote (s : List Char) : quoteFor s = '\'' ∨ quoteFor s = '"' := by
  unfold quoteFor
  split_ifs
  · exact Or.inr rfl
  · exact Or.inl rfl

theorem pyStrLit_det (s₁ s₂ r₁ r₂ : List Char)
    (h : pyStrLit s₁ ++ r₁ = pyStrLit s₂ ++ r₂) : s₁ = s₂ ∧ r₁ = r₂ := by
  unfold pyStrLit at h
  rw [List.cons_append, List.cons_append] at h
  injection h with hqq h
  rw [List.append_assoc, List.append_assoc, List.singleton_append,
    List.singleton_append] at h
  rw [hqq] at h
  exact escapeStr_det (quoteFor s₂) (quoteFor_quote s₂) s₁ s₂ r₁ r₂ h

/-! ## C7 groundwork: the head character determines the constructor -/

theorem headClass_digit (c : Char) (h : isDigitB c = true) : headClass c = 2 := by
  unfold isDigitB at h
  simp only [Bool.and_eq_true, decide_eq_true_eq] at h
  unfold headClass
  rw [if_neg (fun e => by rw [e] at h; exact absurd h (by decide))]
  rw [if_neg (fun e => by rcases e with e | e <;> rw [e] at h <;> exact absurd h (by decide))]
  rw [if_pos (Or.inr (by unfold isDigitB; simp only [Bool.and_eq_true, decide_eq_true_eq]; omega))]

theorem pyRepr_head (v : JsonValue) :
    ∃ c t, pyReprChars v = c :: t ∧ headClass c = classIdx v := by
  cases v with
  | null => exact ⟨'N', _, rfl, by decide⟩
  | bool b => cases b with
      | true => exact ⟨'T', _, rfl, by decide⟩
      | false => exact ⟨'F', _, rfl, by decide⟩
  | num n =>
      show ∃ c t, intChars n = c :: t ∧ headClass c = 2
      unfold intChars
      by_cases hn : n < 0
      · rw [if_pos hn]
        exact ⟨'-', _, rfl, by decide⟩
      · rw [if_neg hn]
        obtain ⟨c, t, hct, hcd⟩ := intChars_head_digit_of_nonneg n.toNat
        exact ⟨c, t, hct, headClass_digit c hcd⟩
  | str s =>
      show ∃ c t, pyStrLit s.data = c :: t ∧ headClass c = 3
      unfold pyStrLit
      refine ⟨quoteFor s.data, _, rfl, ?_⟩
      rcases quoteFor_quote s.data with e | e <;> rw [e] <;> decide
  | arr xs => exact ⟨'[', _, rfl, (by decide : headClass '[' = 4)⟩
  | obj kvs => exact ⟨'\x7b', _, rfl, (by decide : headClass '\x7b' = 5)⟩

theorem class_eq_of_append_eq (v₁ v₂ : JsonValue) (r₁ r₂ : List Char)
    (h : pyReprChars v₁ ++ r₁ = pyReprChars v₂ ++ r₂) : classIdx v₁ = classIdx v₂ := by
  obtain ⟨c₁, t₁, e₁, hc₁⟩ := pyRepr_head v₁
  obtain ⟨c₂, t₂, e₂, hc₂⟩ := pyRepr_head v₂
  rw [e₁, e₂, List.cons_append, List.cons_append] at h
  injection h with hc _
  rw [← hc₁, ← hc₂, hc]

theorem classIdx_le (v : JsonValue) : classIdx v ≤ 5 := by
  cases v <;> simp [classIdx]

theorem head_not_value (v : JsonValue) (k : Char) (hk : headClass k = 6)
    (t r : List Char) (h : pyReprChars v ++ r = k :: t) : False := by
  obtain ⟨c₁, t₁, e₁, hc₁⟩ := pyRepr_head v
  rw [e₁, List.cons_append] at h
  injection h with hc _
  rw [hc, hk] at hc₁
  have := classIdx_le v
  omega

theorem pyReprElems_cons (x : JsonValue) (t : List JsonValue) :
    pyReprElems (x :: t) = pyReprChars x ++
      (match t with
       | [] => []
       | _ :: _ => ',' :: ' ' :: pyReprElems t) := by
  cases t with
  | nil => simp [pyReprElems]
  | cons y u => rfl

theorem pyReprEntries_cons (e : String × JsonValue) (t : List (String × JsonValue)) :
    pyReprEntries (e :: t) = pyStrLit e.1.data ++ (':' :: ' ' :: (pyReprChars e.2 ++
      (match t with
       | [] => []
       | _ :: _ => ',' :: ' ' :: pyReprEntries t))) := by
  obtain ⟨k, v⟩ := e
  cases t with
  | nil => simp [pyReprEntries]
  | cons f u => simp [pyReprEntries]

theorem elemsTail_headDigit (t : List JsonValue) (k : Char) (hk : isDigitB k = false)
    (r : List Char) :
    headDigitB ((match t with
      | ([] : List JsonValue) => ([] : List Char)
      | _ :: _ => ',' :: ' ' :: pyReprElems t) ++ k :: r) = false := by
  cases t with
  | nil => exact hk
  | cons y u => rfl

theorem entriesTail_headDigit (t : List (String × JsonValue)) (k : Char)
    (hk : isDigitB k = false) (r : List Char) :
    headDigitB ((match t with
      | ([] : List (String × JsonValue)) => ([] : List Char)
      | _ :: _ => ',' :: ' ' :: pyReprEntries t) ++ k :: r) = false := by
  cases t with
  | nil => exact hk
  | cons f u => rfl

theorem pyReprElems_det : ∀ xs₁ : List JsonValue, (∀ x ∈ xs₁, pyReprDet x) →
    ∀ xs₂ r₁ r₂, pyReprElems xs₁ ++ ']' :: r₁ = pyReprElems xs₂ ++ ']' :: r₂ →
    xs₁ = xs₂ ∧ r₁ = r₂ := by
  intro xs₁
  induction xs₁ with
  | nil =>
      intro _ xs₂ r₁ r₂ h
      cases xs₂ with
      | nil =>
          rw [show pyReprElems [] = [] from rfl, List.nil_append, List.nil_append] at h
          injection h with _ hr
          exact ⟨rfl, hr⟩
      | cons x t =>
          rw [show pyReprElems [] = [] from rfl, List.nil_append, pyReprElems_cons,
            List.append_assoc] at h
          exact absurd (head_not_value x ']' (by decide) _ _ h.symm) not_false
  | cons x₁ t₁ ih =>
      intro hdet xs₂ r₁ r₂ h
      cases xs₂ with
      | nil =>
          rw [show pyReprElems [] = [] from rfl, List.nil_append, pyReprElems_cons,
            List.append_assoc] at h
          exact absurd (head_not_value x₁ ']' (by decide) _ _ h) not_false
      | cons x₂ t₂ =>
          rw [pyReprElems_cons, pyReprElems_cons, List.append_assoc, List.append_assoc] at h
          obtain ⟨hx, hrest⟩ := hdet x₁ (List.mem_cons_self _ _) x₂ _ _
            (elemsTail_headDigit t₁ ']' (by decide) r₁)
            (elemsTail_headDigit t₂ ']' (by decide) r₂) h
          cases t₁ with
          | nil =>
              cases t₂ with
              | nil =>
                  simp only [List.nil_append] at hrest
                  injection hrest with _ hr
                  exact ⟨by rw [hx], hr⟩
              | cons y₂ u₂ =>
                  simp only [List.nil_append, List.cons_append] at hrest
                  injection hrest with hc _
                  exact absurd hc (by decide)
          | cons y₁ u₁ =>
              cases t₂ with
              | nil =>
                  simp only [List.nil_append, List.cons_append] at hrest
                  injection hrest with hc _
                  exact absurd hc (by decide)
              | cons y₂ u₂ =>
                  simp only [List.cons_append] at hrest
                  injection hrest with _ hrest
                  injection hrest with _ hrest
                  obtain ⟨ht, hr⟩ := ih
                    (fun x hx' => hdet x (List.mem_cons_of_mem _ hx')) (y₂ :: u₂) r₁ r₂ hrest
                  exact ⟨by rw [hx, ht], hr⟩

theorem pyReprEntries_det : ∀ kvs₁ : List (String × JsonValue),
    (∀ kv ∈ kvs₁, pyReprDet kv.2) →
    ∀ kvs₂ r₁ r₂, pyReprEntries kvs₁ ++ '\x7d' :: r₁ = pyReprEntries kvs₂ ++ '\x7d' :: r₂ →
    kvs₁ = kvs₂ ∧ r₁ = r₂ := by
  intro kvs₁
  induction kvs₁ with
  | nil =>
      intro _ kvs₂ r₁ r₂ h
      cases kvs₂ with
      | nil =>
          rw [show pyReprEntries [] = [] from rfl, List.nil_append, List.nil_append] at h
          injection h with _ hr
          exact ⟨rfl, hr⟩
      | cons e t =>
          rw [show pyReprEntries [] = [] from rfl, List.nil_append, pyReprEntries_cons,
            List.append_assoc] at h
          obtain ⟨c', t', he, hne⟩ :
              ∃ c' t', pyStrLit e.1.data = c' :: t' ∧ (c' = '\'' ∨ c' = '"') :=
            ⟨quoteFor e.1.data, _, rfl, quoteFor_quote e.1.data⟩
          rw [he, List.cons_append] at h
          injection h with hc _
          rcases hne with hne | hne <;> rw [hne] at hc <;> exact absurd hc (by decide)
  | cons e₁ t₁ ih =>
      intro hdet kvs₂ r₁ r₂ h
      cases kvs₂ with
      | nil =>
          rw [show pyReprEntries [] = [] from rfl, List.nil_append, pyReprEntries_cons,
            List.append_assoc] at h
          obtain ⟨c', t', he, hne⟩ :
              ∃ c' t', pyStrLit e₁.1.data = c' :: t' ∧ (c' = '\'' ∨ c' = '"') :=
            ⟨quoteFor e₁.1.data, _, rfl, quoteFor_quote e₁.1.data⟩
          rw [he, List.cons_append] at h
          injection h with hc _
          rcases hne with hne | hne <;> rw [hne] at hc <;> exact absurd hc.symm (by decide)
      | cons e₂ t₂ =>
          rw [pyReprEntries_cons, pyReprEntries_cons, List.append_assoc,
            List.append_assoc] at h
          obtain ⟨hk, hrest⟩ := pyStrLit_det _ _ _ _ h
          injection hrest with _ hrest
          injection hrest with _ hrest
          simp only [List.append_eq] at hrest
          rw [List.append_assoc, List.append_assoc] at hrest
          obtain ⟨hv, hrest₂⟩ := hdet e₁ (List.mem_cons_self _ _) e₂.2 _ _
            (entriesTail_headDigit t₁ '\x7d' (by decide) r₁)
            (entriesTail_headDigit t₂ '\x7d' (by decide) r₂) hrest
          have hkey : e₁.1 = e₂.1 := String.ext hk
          cases t₁ with
          | nil =>
              cases t₂ with
              | nil =>
                  simp only [List.nil_append] at hrest₂
                  injection hrest₂ with _ hr
                  refine ⟨?_, hr⟩
                  rw [show e₁ = (e₁.1, e₁.2) from rfl, show e₂ = (e₂.1, e₂.2) from rfl,
                    hkey, hv]
              | cons f₂ u₂ =>
                  simp only [List.nil_append, List.cons_append] at hrest₂
                  injection hrest₂ with hc _
                  exact absurd hc (by decide)
          | cons f₁ u₁ =>
              cases t₂ with
              | nil =>
                  simp only [List.nil_append, List.cons_append] at hrest₂
                  injection hrest₂ with hc _
                  exact absurd hc (by decide)
              | cons f₂ u₂ =>
                  simp only [List.cons_append] at hrest₂
                  injection hrest₂ with _ hrest₂
                  injection hrest₂ with _ hrest₂
                  obtain ⟨ht, hr⟩ := ih
                    (fun kv hkv => hdet kv (List.mem_cons_of_mem _ hkv)) (f₂ :: u₂) r₁ r₂ hrest₂
                  refine ⟨?_, hr⟩
                  rw [show e₁ = (e₁.1, e₁.2) from rfl, show e₂ = (e₂.1, e₂.2) from rfl,
                    hkey, hv, ht]

theorem pyReprDet_all : ∀ v, pyReprDet v := by
  intro v
  induction v using jsonInduction with
  | hnull =>
      intro v₂ r₁ r₂ hr₁ hr₂ h
      have hc := class_eq_of_append_eq _ _ _ _ h
      cases v₂ <;> simp [classIdx] at hc
      simp only [pyReprChars, List.cons_append, List.cons.injEq, true_and] at h
      exact ⟨rfl, h⟩
  | hbool b =>
      intro v₂ r₁ r₂ hr₁ hr₂ h
      have hc := class_eq_of_append_eq _ _ _ _ h
      cases v₂ <;> simp [classIdx] at hc
      case bool b₂ =>
        cases b <;> cases b₂ <;>
          simp only [pyReprChars, List.cons_append, List.cons.injEq, true_and] at h
        · exact ⟨rfl, h⟩
        · exact absurd h.1 (by decide)
        · exact absurd h.1 (by decide)
        · exact ⟨rfl, h⟩
  | hnum n =>
      intro v₂ r₁ r₂ hr₁ hr₂ h
      have hc := class_eq_of_append_eq _ _ _ _ h
      cases v₂ <;> simp [classIdx] at hc
      case num n₂ =>
        simp only [pyReprChars] at h
        obtain ⟨hd, hr⟩ := intChars_det n n₂ r₁ r₂ hr₁ hr₂ h
        exact ⟨congrArg JsonValue.num hd, hr⟩
  | hstr s =>
      intro v₂ r₁ r₂ hr₁ hr₂ h
      have hc := class_eq_of_append_eq _ _ _ _ h
      cases v₂ <;> simp [classIdx] at hc
      case str s₂ =>
        simp only [pyReprChars] at h
        obtain ⟨hd, hr⟩ := pyStrLit_det _ _ _ _ h
        exact ⟨congrArg JsonValue.str (String.ext hd), hr⟩
  | harr xs ihs =>
      intro v₂ r₁ r₂ hr₁ hr₂ h
      have hc := class_eq_of_append_eq _ _ _ _ h
      cases v₂ <;> simp [classIdx] at hc
      case arr ys =>
        simp only [pyReprChars, List.cons_append, List.append_assoc,
          List.singleton_append, List.cons.injEq, true_and] at h
        obtain ⟨hd, hr⟩ := pyReprElems_det xs ihs ys r₁ r₂ h
        exact ⟨congrArg JsonValue.arr hd, hr⟩
  | hobj kvs ihs =>
      intro v₂ r₁ r₂ hr₁ hr₂ h
      have hc := class_eq_of_append_eq _ _ _ _ h
      cases v₂ <;> simp [classIdx] at hc
      case obj kvs₂ =>
        simp only [pyReprChars, List.cons_append, List.append_assoc,
          List.singleton_append, List.cons.injEq, true_and] at h
        obtain ⟨hd, hr⟩ := pyReprEntries_det kvs ihs kvs₂ r₁ r₂ h
        exact ⟨congrArg JsonValue.obj hd, hr⟩

theorem pyRepr_inj (v₁ v₂ : JsonValue) (h : pyReprChars v₁ = pyReprChars v₂) :
    v₁ = v₂ :=
  (pyReprDet_all v₁ v₂ [] [] rfl rfl (by rw [List.append_nil, List.append_nil, h])).1

theorem sortKey_inj (v₁ v₂ : JsonValue) (hn : pyTypeNameChars v₁ = pyTypeNameChars v₂)
    (hs : pyStrChars v₁ = pyStrChars v₂) : v₁ = v₂ := by
  cases v₁ <;> cases v₂ <;> simp only [pyTypeNameChars] at hn <;>
    try exact absurd hn (by decide)
  · rfl
  · exact pyRepr_inj _ _ hs
  · exact pyRepr_inj _ _ hs
  · exact congrArg JsonValue.str (String.ext hs)
  · exact pyRepr_inj _ _ hs
  · exact pyRepr_inj _ _ hs

theorem sortKeyLeB_antisymm (x y : JsonValue) (h₁ : sortKeyLeB x y = true)
    (h₂ : sortKeyLeB y x = true) : x = y := by
  obtain ⟨hn, hs⟩ := sortKeyLeB_antisymm_key x y h₁ h₂
  exact sortKey_inj x y hn hs

/-! ## C7 groundwork: sorted lists with a permutation and local antisymmetry -/

theorem sorted_perm_eq {α : Type} (r : α → α → Prop) :
    ∀ l₁ l₂ : List α,
    (∀ a ∈ l₁, ∀ b ∈ l₁, r a b → r b a → a = b) →
    l₁.Perm l₂ → l₁.Pairwise r → l₂.Pairwise r → l₁ = l₂ := by
  intro l₁
  induction l₁ with
  | nil =>
      intro l₂ _ hp _ _
      exact List.Perm.nil_eq hp
  | cons a t ih =>
      intro l₂ hanti hp h₁ h₂
      cases l₂ with
      | nil =>
          have := hp.length_eq
          simp at this
      | cons b t₂ =>
          by_cases hab : a = b
          · subst hab
            have hp' := hp.cons_inv
            rw [List.pairwise_cons] at h₁ h₂
            rw [ih t₂ (fun x hx y hy hxy hyx =>
              hanti x (List.mem_cons_of_mem _ hx) y (List.mem_cons_of_mem _ hy) hxy hyx)
              hp' h₁.2 h₂.2]
          · have ha2 : a ∈ t₂ := by
              have hmem : a ∈ b :: t₂ := hp.subset (List.mem_cons_self _ _)
              rcases List.mem_cons.mp hmem with h | h
              · exact absurd h hab
              · exact h
            have hb1 : b ∈ t := by
              have hmem : b ∈ a :: t := hp.symm.subset (List.mem_cons_self _ _)
              rcases List.mem_cons.mp hmem with h | h
              · exact absurd h.symm hab
              · exact h
            rw [List.pairwise_cons] at h₁ h₂
            have hrab : r a b := h₁.1 b hb1
            have hrba : r b a := h₂.1 a ha2
            exact absurd (hanti a (List.mem_cons_self _ _) b
              (List.mem_cons_of_mem _ hb1) hrab hrba) hab

theorem sortedByB_of_pairwise {α : Type} (le : α → α → Bool) :
    ∀ l : List α, l.Pairwise (fun a b => le a b = true) → sortedByB le l = true := by
  intro l h
  induction h with
  | nil => rfl
  | cons hhead htail ih =>
      rename_i a t
      cases t with
      | nil => rfl
      | cons b u =>
          show (le a b && sortedByB le (b :: u)) = true
          rw [hhead b (List.mem_cons_self _ _), ih]
          rfl

/-! ## C7 groundwork: the traversal helpers as maps, and predicates as
membership statements -/

theorem sortJsonList_eq_map (xs : List JsonValue) :
    sortJsonList xs = xs.map sort_dict_keys_and_lists := by
  induction xs with
  | nil => rfl
  | cons x t ih => simp [sortJsonList, ih]

theorem sortJsonEntries_eq_map (kvs : List (String × JsonValue)) :
    sortJsonEntries kvs = kvs.map (fun p => (p.1, sort_dict_keys_and_lists p.2)) := by
  induction kvs with
  | nil => rfl
  | cons p t ih =>
      obtain ⟨k, v⟩ := p
      simp [sortJsonEntries, ih]

theorem allNormalized_iff (l : List JsonValue) :
    allNormalized l = true ↔ ∀ x ∈ l, isNormalized x = true := by
  induction l with
  | nil => simp [allNormalized]
  | cons x t ih =>
      show (isNormalized x && allNormalized t) = true ↔ _
      rw [Bool.and_eq_true, ih]
      constructor
      · rintro ⟨h1, h2⟩ y hy
        rcases List.mem_cons.mp hy with hy | hy
        · rw [hy]; exact h1
        · exact h2 y hy
      · intro h
        exact ⟨h x (List.mem_cons_self _ _), fun y hy => h y (List.mem_cons_of_mem _ hy)⟩

theorem allNormalizedEntries_iff (l : List (String × JsonValue)) :
    allNormalizedEntries l = true ↔ ∀ p ∈ l, isNormalized p.2 = true := by
  induction l with
  | nil => simp [allNormalizedEntries]
  | cons p t ih =>
      obtain ⟨k, v⟩ := p
      show (isNormalized v && allNormalizedEntries t) = true ↔ _
      rw [Bool.and_eq_true, ih]
      constructor
      · rintro ⟨h1, h2⟩ q hq
        rcases List.mem_cons.mp hq with hq | hq
        · rw [hq]; exact h1
        · exact h2 q hq
      · intro h
        exact ⟨h (k, v) (List.mem_cons_self _ _), fun q hq => h q (List.mem_cons_of_mem _ hq)⟩

theorem allWF_iff (l : List JsonValue) :
    allWF l = true ↔ ∀ x ∈ l, jsonWF x = true := by
  induction l with
  | nil => simp [allWF]
  | cons x t ih =>
      show (jsonWF x && allWF t) = true ↔ _
      rw [Bool.and_eq_true, ih]
      constructor
      · rintro ⟨h1, h2⟩ y hy
        rcases List.mem_cons.mp hy with hy | hy
        · rw [hy]; exact h1
        · exact h2 y hy
      · intro h
        exact ⟨h x (List.mem_cons_self _ _), fun y hy => h y (List.mem_cons_of_mem _ hy)⟩

theorem allWFEntries_iff (l : List (String × JsonValue)) :
    allWFEntries l = true ↔ ∀ p ∈ l, jsonWF p.2 = true := by
  induction l with
  | nil => simp [allWFEntries]
  | cons p t ih =>
      obtain ⟨k, v⟩ := p
      show (jsonWF v && allWFEntries t) = true ↔ _
      rw [Bool.and_eq_true, ih]
      constructor
      · rintro ⟨h1, h2⟩ q hq
        rcases List.mem_cons.mp hq with hq | hq
        · rw [hq]; exact h1
        · exact h2 q hq
      · intro h
        exact ⟨h (k, v) (List.mem_cons_self _ _), fun q hq => h q (List.mem_cons_of_mem _ hq)⟩

theorem nodupKeysB_eq_of_mem : ∀ kvs : List (String × JsonValue),
    nodupKeysB kvs = true →
    ∀ a b : String × JsonValue, a ∈ kvs → b ∈ kvs → a.1 = b.1 → a = b := by
  intro kvs
  induction kvs with
  | nil =>
      intro _ a b ha _ _
      cases ha
  | cons p t ih =>
      intro h a b ha hb hk
      obtain ⟨k, v⟩ := p
      have h' : (!(t.any fun q => q.1 == k) && nodupKeysB t) = true := h
      rw [Bool.and_eq_true, Bool.not_eq_true'] at h'
      obtain ⟨hany, hnd⟩ := h'
      have hkey : ∀ q ∈ t, q.1 ≠ k := by
        intro q hq he
        have : t.any (fun q => q.1 == k) = true :=
          List.any_eq_true.mpr ⟨q, hq, by simp [he]⟩
        rw [this] at hany
        cases hany
      rcases List.mem_cons.mp ha with ha | ha <;> rcases List.mem_cons.mp hb with hb | hb
      · rw [ha, hb]
      · rw [ha] at hk
        exact absurd (hk.symm : b.1 = k) (hkey b hb)
      · rw [hb] at hk
        exact absurd (hk : a.1 = k) (hkey a ha)
      · exact ih hnd a b ha hb hk

theorem sortJsonEntries_any_key (kvs : List (String × JsonValue)) (k : String) :
    ((sortJsonEntries kvs).any fun q => q.1 == k) = (kvs.any fun q => q.1 == k) := by
  induction kvs with
  | nil => rfl
  | cons p t ih =>
      obtain ⟨k', v⟩ := p
      show (decide (k' = k) || _) = (decide (k' = k) || _)
      rw [ih]

theorem nodupKeysB_sortJsonEntries (kvs : List (String × JsonValue))
    (h : nodupKeysB kvs = true) : nodupKeysB (sortJsonEntries kvs) = true := by
  induction kvs with
  | nil => rfl
  | cons p t ih =>
      obtain ⟨k, v⟩ := p
      have h' : (!(t.any fun q => q.1 == k) && nodupKeysB t) = true := h
      rw [Bool.and_eq_true] at h'
      show (!((sortJsonEntries t).any fun q => q.1 == k) && nodupKeysB (sortJsonEntries t)) = true
      rw [Bool.and_eq_true, sortJsonEntries_any_key]
      exact ⟨h'.1, ih h'.2⟩

/-! ## C7 component 1: the output has the same entries and elements -/

theorem jsonListEquiv_sortJsonList : ∀ xs : List JsonValue,
    (∀ x ∈ xs, JsonEquiv x (sort_dict_keys_and_lists x)) →
    JsonListEquiv xs (sortJsonList xs) := by
  intro xs
  induction xs with
  | nil => exact fun _ => .nil
  | cons x t ih =>
      intro h
      exact .cons x _ t _ (h x (List.mem_cons_self _ _))
        (ih (fun y hy => h y (List.mem_cons_of_mem _ hy)))

theorem jsonEntriesEquiv_sortJsonEntries : ∀ kvs : List (String × JsonValue),
    (∀ kv ∈ kvs, JsonEquiv kv.2 (sort_dict_keys_and_lists kv.2)) →
    JsonEntriesEquiv kvs (sortJsonEntries kvs) := by
  intro kvs
  induction kvs with
  | nil => exact fun _ => .nil
  | cons p t ih =>
      intro h
      obtain ⟨k, v⟩ := p
      exact .cons k v _ t _ (h (k, v) (List.mem_cons_self _ _))
        (ih (fun q hq => h q (List.mem_cons_of_mem _ hq)))

theorem sort_equiv : ∀ v, JsonEquiv v (sort_dict_keys_and_lists v) := by
  intro v
  induction v using jsonInduction with
  | hnull => exact .null
  | hbool b => exact .bool b
  | hnum n => exact .num n
  | hstr s => exact .str s
  | harr xs ih =>
      exact .arr xs (sortJsonList xs) _ (jsonListEquiv_sortJsonList xs ih)
        (List.perm_insertionSort sortKeyLe (sortJsonList xs)).symm
  | hobj kvs ih =>
      exact .obj kvs (sortJsonEntries kvs) _ (jsonEntriesEquiv_sortJsonEntries kvs ih)
        (List.perm_insertionSort entryKeyLe (sortJsonEntries kvs)).symm

/-! ## C7 component 2: the output is sorted everywhere -/

theorem mem_sortJsonList (xs : List JsonValue) (x : JsonValue)
    (h : x ∈ sortJsonList xs) : ∃ y ∈ xs, x = sort_dict_keys_and_lists y := by
  rw [sortJsonList_eq_map] at h
  obtain ⟨y, hy, he⟩ := List.mem_map.mp h
  exact ⟨y, hy, he.symm⟩

theorem mem_sortJsonEntries (kvs : List (String × JsonValue)) (p : String × JsonValue)
    (h : p ∈ sortJsonEntries kvs) :
    ∃ q ∈ kvs, p = (q.1, sort_dict_keys_and_lists q.2) := by
  rw [sortJsonEntries_eq_map] at h
  obtain ⟨q, hq, he⟩ := List.mem_map.mp h
  exact ⟨q, hq, he.symm⟩

theorem sort_normalized : ∀ v, isNormalized (sort_dict_keys_and_lists v) = true := by
  intro v
  induction v using jsonInduction with
  | hnull => rfl
  | hbool b => rfl
  | hnum n => rfl
  | hstr s => rfl
  | harr xs ih =>
      haveI : IsTotal JsonValue sortKeyLe := ⟨fun a b => sortKeyLeB_total a b⟩
      haveI : IsTrans JsonValue sortKeyLe := ⟨fun a b c => sortKeyLeB_trans a b c⟩
      show (sortedByB sortKeyLeB (List.insertionSort sortKeyLe (sortJsonList xs)) &&
        allNormalized (List.insertionSort sortKeyLe (sortJsonList xs))) = true
      rw [Bool.and_eq_true]
      constructor
      · exact sortedByB_of_pairwise sortKeyLeB _
          (List.sorted_insertionSort sortKeyLe (sortJsonList xs))
      · rw [allNormalized_iff]
        intro x hx
        have hx' : x ∈ sortJsonList xs :=
          (List.perm_insertionSort sortKeyLe (sortJsonList xs)).subset hx
        obtain ⟨y, hy, he⟩ := mem_sortJsonList xs x hx'
        rw [he]
        exact ih y hy
  | hobj kvs ih =>
      haveI : IsTotal (String × JsonValue) entryKeyLe := ⟨fun a b => entryKeyLeB_total a b⟩
      haveI : IsTrans (String × JsonValue) entryKeyLe := ⟨fun a b c => entryKeyLeB_trans a b c⟩
      show (sortedByB entryKeyLeB (List.insertionSort entryKeyLe (sortJsonEntries kvs)) &&
        allNormalizedEntries (List.insertionSort entryKeyLe (sortJsonEntries kvs))) = true
      rw [Bool.and_eq_true]
      constructor
      · exact sortedByB_of_pairwise entryKeyLeB _
          (List.sorted_insertionSort entryKeyLe (sortJsonEntries kvs))
      · rw [allNormalizedEntries_iff]
        intro p hp
        have hp' : p ∈ sortJsonEntries kvs :=
          (List.perm_insertionSort entryKeyLe (sortJsonEntries kvs)).subset hp
        obtain ⟨q, hq, he⟩ := mem_sortJsonEntries kvs p hp'
        rw [he]
        exact ih q hq

/-! ## C7 component 3: idempotence -/

theorem map_eq_self_of_eq {α : Type} (f : α → α) :
    ∀ l : List α, (∀ x ∈ l, f x = x) → l.map f = l := by
  intro l
  induction l with
  | nil => exact fun _ => rfl
  | cons x t ih =>
      intro h
      rw [List.map_cons, h x (List.mem_cons_self _ _),
        ih (fun y hy => h y (List.mem_cons_of_mem _ hy))]

theorem sort_idem : ∀ v,
    sort_dict_keys_and_lists (sort_dict_keys_and_lists v) = sort_dict_keys_and_lists v := by
  intro v
  induction v using jsonInduction with
  | hnull => rfl
  | hbool b => rfl
  | hnum n => rfl
  | hstr s => rfl
  | harr xs ih =>
      haveI : IsTotal JsonValue sortKeyLe := ⟨fun a b => sortKeyLeB_total a b⟩
      haveI : IsTrans JsonValue sortKeyLe := ⟨fun a b c => sortKeyLeB_trans a b c⟩
      show JsonValue.arr (List.insertionSort sortKeyLe
        (sortJsonList (List.insertionSort sortKeyLe (sortJsonList xs)))) = _
      have hfix : sortJsonList (List.insertionSort sortKeyLe (sortJsonList xs)) =
          List.insertionSort sortKeyLe (sortJsonList xs) := by
        rw [sortJsonList_eq_map]
        apply map_eq_self_of_eq
        intro x hx
        obtain ⟨y, hy, he⟩ := mem_sortJsonList xs x
          ((List.perm_insertionSort sortKeyLe (sortJsonList xs)).subset hx)
        rw [he]
        exact ih y hy
      rw [hfix, List.Sorted.insertionSort_eq
        (List.sorted_insertionSort sortKeyLe (sortJsonList xs))]
      rfl
  | hobj kvs ih =>
      haveI : IsTotal (String × JsonValue) entryKeyLe := ⟨fun a b => entryKeyLeB_total a b⟩
      haveI : IsTrans (String × JsonValue) entryKeyLe := ⟨fun a b c => entryKeyLeB_trans a b c⟩
      show JsonValue.obj (List.insertionSort entryKeyLe
        (sortJsonEntries (List.insertionSort entryKeyLe (sortJsonEntries kvs)))) = _
      have hfix : sortJsonEntries (List.insertionSort entryKeyLe (sortJsonEntries kvs)) =
          List.insertionSort entryKeyLe (sortJsonEntries kvs) := by
        rw [sortJsonEntries_eq_map]
        apply map_eq_self_of_eq
        intro p hp
        obtain ⟨q, hq, he⟩ := mem_sortJsonEntries kvs p
          ((List.perm_insertionSort entryKeyLe (sortJsonEntries kvs)).subset hp)
        rw [he]
        show (q.1, sort_dict_keys_and_lists (sort_dict_keys_and_lists q.2)) = _
        rw [ih q hq]
      rw [hfix, List.Sorted.insertionSort_eq
        (List.sorted_insertionSort entryKeyLe (sortJsonEntries kvs))]
      rfl

/-! ## C7 component 4: order-insensitivity on well-formed values -/

theorem sortJsonList_congr : ∀ xs zs : List JsonValue,
    JsonListEquiv xs zs →
    (∀ x ∈ xs, ∀ z, jsonWF x = true → jsonWF z = true → JsonEquiv x z →
      sort_dict_keys_and_lists x = sort_dict_keys_and_lists z) →
    (∀ x ∈ xs, jsonWF x = true) → (∀ z ∈ zs, jsonWF z = true) →
    sortJsonList xs = sortJsonList zs := by
  intro xs
  induction xs with
  | nil =>
      intro zs hl _ _ _
      cases hl
      rfl
  | cons x t ih =>
      intro zs hl hcongr hwx hwz
      cases hl with
      | cons _ z _ t₂ hxz hlt =>
          show sort_dict_keys_and_lists x :: sortJsonList t = _
          rw [hcongr x (List.mem_cons_self _ _) z (hwx x (List.mem_cons_self _ _))
            (hwz z (List.mem_cons_self _ _)) hxz]
          rw [ih t₂ hlt (fun y hy => hcongr y (List.mem_cons_of_mem _ hy))
            (fun y hy => hwx y (List.mem_cons_of_mem _ hy))
            (fun y hy => hwz y (List.mem_cons_of_mem _ hy))]
          rfl

theorem sortJsonEntries_congr : ∀ kvs zs : List (String × JsonValue),
    JsonEntriesEquiv kvs zs →
    (∀ p ∈ kvs, ∀ z, jsonWF p.2 = true → jsonWF z = true → JsonEquiv p.2 z →
      sort_dict_keys_and_lists p.2 = sort_dict_keys_and_lists z) →
    (∀ p ∈ kvs, jsonWF p.2 = true) → (∀ q ∈ zs, jsonWF q.2 = true) →
    sortJsonEntries kvs = sortJsonEntries zs := by
  intro kvs
  induction kvs with
  | nil =>
      intro zs hl _ _ _
      cases hl
      rfl
  | cons p t ih =>
      intro zs hl hcongr hwx hwz
      cases hl with
      | cons k v w t₁ t₂ hvw hlt =>
          show (k, sort_dict_keys_and_lists v) :: sortJsonEntries t = _
          rw [hcongr (k, v) (List.mem_cons_self _ _) w (hwx (k, v) (List.mem_cons_self _ _))
            (hwz (k, w) (List.mem_cons_self _ _)) hvw]
          rw [ih t₂ hlt (fun q hq => hcongr q (List.mem_cons_of_mem _ hq))
            (fun q hq => hwx q (List.mem_cons_of_mem _ hq))
            (fun q hq => hwz q (List.mem_cons_of_mem _ hq))]
          rfl

theorem sort_canonical : ∀ v, ∀ w, jsonWF v = true → jsonWF w = true →
    JsonEquiv v w → sort_dict_keys_and_lists v = sort_dict_keys_and_lists w := by
  intro v
  induction v using jsonInduction with
  | hnull =>
      intro w _ _ h
      cases h
      rfl
  | hbool b =>
      intro w _ _ h
      cases h
      rfl
  | hnum n =>
      intro w _ _ h
      cases h
      rfl
  | hstr s =>
      intro w _ _ h
      cases h
      rfl
  | harr xs ih =>
      intro w hwv hww h
      cases h with
      | arr _ zs ys hlist hperm =>
          haveI : IsTotal JsonValue sortKeyLe := ⟨fun a b => sortKeyLeB_total a b⟩
          haveI : IsTrans JsonValue sortKeyLe := ⟨fun a b c => sortKeyLeB_trans a b c⟩
          have hwxs : ∀ x ∈ xs, jsonWF x = true := (allWF_iff xs).mp hwv
          have hwys : ∀ y ∈ ys, jsonWF y = true := (allWF_iff ys).mp hww
          have hwzs : ∀ z ∈ zs, jsonWF z = true := fun z hz => hwys z (hperm.subset hz)
          have hxz : sortJsonList xs = sortJsonList zs :=
            sortJsonList_congr xs zs hlist ih hwxs hwzs
          have hzy : (sortJsonList zs).Perm (sortJsonList ys) := by
            rw [sortJsonList_eq_map, sortJsonList_eq_map]
            exact hperm.map _
          have hperm' : (List.insertionSort sortKeyLe (sortJsonList xs)).Perm
              (List.insertionSort sortKeyLe (sortJsonList ys)) :=
            ((List.perm_insertionSort sortKeyLe (sortJsonList xs)).trans
              ((hxz ▸ hzy).trans
                (List.perm_insertionSort sortKeyLe (sortJsonList ys)).symm))
          show JsonValue.arr _ = JsonValue.arr _
          rw [sorted_perm_eq sortKeyLe _ _
            (fun a _ b _ hab hba => sortKeyLeB_antisymm a b hab hba) hperm'
            (List.sorted_insertionSort sortKeyLe (sortJsonList xs))
            (List.sorted_insertionSort sortKeyLe (sortJsonList ys))]
  | hobj kvs ih =>
      intro w hwv hww h
      cases h with
      | obj _ zs ys hentr hperm =>
          haveI : IsTotal (String × JsonValue) entryKeyLe :=
            ⟨fun a b => entryKeyLeB_total a b⟩
          haveI : IsTrans (String × JsonValue) entryKeyLe :=
            ⟨fun a b c => entryKeyLeB_trans a b c⟩
          have hwv' : (nodupKeysB kvs && allWFEntries kvs) = true := hwv
          have hww' : (nodupKeysB ys && allWFEntries ys) = true := hww
          rw [Bool.and_eq_true] at hwv' hww'
          have hwkvs : ∀ p ∈ kvs, jsonWF p.2 = true := (allWFEntries_iff kvs).mp hwv'.2
          have hwys : ∀ q ∈ ys, jsonWF q.2 = true := (allWFEntries_iff ys).mp hww'.2
          have hwzs : ∀ q ∈ zs, jsonWF q.2 = true := fun q hq => hwys q (hperm.subset hq)
          have hxz : sortJsonEntries kvs = sortJsonEntries zs :=
            sortJsonEntries_congr kvs zs hentr ih hwkvs hwzs
          have hzy : (sortJsonEntries zs).Perm (sortJsonEntries ys) := by
            rw [sortJsonEntries_eq_map, sortJsonEntries_eq_map]
            exact hperm.map _
          have hperm' : (List.insertionSort entryKeyLe (sortJsonEntries kvs)).Perm
              (List.insertionSort entryKeyLe (sortJsonEntries ys)) :=
            ((List.perm_insertionSort entryKeyLe (sortJsonEntries kvs)).trans
              ((hxz ▸ hzy).trans
                (List.perm_insertionSort entryKeyLe (sortJsonEntries ys)).symm))
          have hnd : nodupKeysB (sortJsonEntries kvs) = true :=
            nodupKeysB_sortJsonEntries kvs hwv'.1
          have hanti : ∀ a ∈ List.insertionSort entryKeyLe (sortJsonEntries kvs),
              ∀ b ∈ List.insertionSort entryKeyLe (sortJsonEntries kvs),
              entryKeyLe a b → entryKeyLe b a → a = b := by
            intro a ha b hb hab hba
            exact nodupKeysB_eq_of_mem (sortJsonEntries kvs) hnd a b
              ((List.perm_insertionSort entryKeyLe (sortJsonEntries kvs)).subset ha)
              ((List.perm_insertionSort entryKeyLe (sortJsonEntries kvs)).subset hb)
              (entryKeyLeB_antisymm_key a b hab hba)
          show JsonValue.obj _ = JsonValue.obj _
          rw [sorted_perm_eq entryKeyLe _ _ hanti hperm'
            (List.sorted_insertionSort entryKeyLe (sortJsonEntries kvs))
            (List.sorted_insertionSort entryKeyLe (sortJsonEntries ys))]

/-! ## C7: the claim -/

/-- C7: `sort_dict_keys_and_lists` is a deterministic normalizer: its output
carries the same multiset of dictionary entries and list elements as its
input at every nesting level, every dictionary's keys end up in ascending
order and every list sorted by the `(type name, string representation)`
key, the function is idempotent, and two well-formed inputs that differ
only in dictionary entry order or list element order (at any depth) map to
equal outputs. -/
theorem sort_dict_keys_and_lists_spec :
    ∀ v : JsonValue,
    JsonEquiv v (sort_dict_keys_and_lists v) ∧
    isNormalized (sort_dict_keys_and_lists v) = true ∧
    sort_dict_keys_and_lists (sort_dict_keys_and_lists v) = sort_dict_keys_and_lists v ∧
    (∀ w, jsonWF v = true → jsonWF w = true → JsonEquiv v w →
      sort_dict_keys_and_lists v = sort_dict_keys_and_lists w) :=
  fun v => ⟨sort_equiv v, sort_normalized v, sort_idem v,
    fun w hv hw h => sort_canonical v w hv hw h⟩

/-- Witness for C7: two concrete dicts that differ only in entry and list
order normalize to the same value. -/
theorem sort_dict_keys_and_lists_spec_witness :
    jsonWF (.obj [("b", .num 1), ("a", .arr [.num 2, .str "x"])]) = true ∧
    jsonWF (.obj [("a", .arr [.str "x", .num 2]), ("b", .num 1)]) = true ∧
    JsonEquiv (.obj [("b", .num 1), ("a", .arr [.num 2, .str "x"])])
      (.obj [("a", .arr [.str "x", .num 2]), ("b", .num 1)]) ∧
    sort_dict_keys_and_lists (.obj [("b", .num 1), ("a", .arr [.num 2, .str "x"])]) =
      sort_dict_keys_and_lists (.obj [("a", .arr [.str "x", .num 2]), ("b", .num 1)]) := by
  have hlist : JsonEquiv (.arr [.num 2, .str "x"]) (.arr [.str "x", .num 2]) :=
    .arr _ [.num 2, .str "x"] _
      (.cons _ _ _ _ (.num 2) (.cons _ _ _ _ (.str "x") .nil))
      (List.Perm.swap _ _ _)
  have hequiv : JsonEquiv (.obj [("b", .num 1), ("a", .arr [.num 2, .str "x"])])
      (.obj [("a", .arr [.str "x", .num 2]), ("b", .num 1)]) :=
    .obj _ [("b", .num 1), ("a", .arr [.str "x", .num 2])] _
      (.cons "b" _ _ _ _ (.num 1) (.cons "a" _ _ _ _ hlist .nil))
      (List.Perm.swap _ _ _)
  refine ⟨by decide, by decide, hequiv, ?_⟩
  exact (sort_dict_keys_and_lists_spec
    (.obj [("b", .num 1), ("a", .arr [.num 2, .str "x"])])).2.2.2
    (.obj [("a", .arr [.str "x", .num 2]), ("b", .num 1)]) (by decide) (by decide) hequiv

/-- Witness for C2 at a concrete tracker state, file system and payload. -/
theorem track_fixture_changes_spec_witness :
    ((track_fixture_changes (FixtureDiffTracker.mk [] [])
        ((fun q => if q = "p" then FileState.readable "old" else FileState.absent) :
          FileSystem) (JsonValue.obj []) "p").changed_fixtures =
      (FixtureDiffTracker.mk [] []).changed_fixtures ++ [relative_to_generated "p"] ↔
      ∃ c, load_existing_fixture
          ((fun q => if q = "p" then FileState.readable "old" else FileState.absent) :
            FileSystem) "p" = some c ∧ c ≠ format_fixture_content (JsonValue.obj [])) ∧
    ((track_fixture_changes (FixtureDiffTracker.mk [] [])
        ((fun q => if q = "p" then FileState.readable "old" else FileState.absent) :
          FileSystem) (JsonValue.obj []) "p").new_fixtures =
      (FixtureDiffTracker.mk [] []).new_fixtures ++ [relative_to_generated "p"] ↔
      load_existing_fixture
          ((fun q => if q = "p" then FileState.readable "old" else FileState.absent) :
            FileSystem) "p" = none) ∧
    (∀ c, load_existing_fixture
          ((fun q => if q = "p" then FileState.readable "old" else FileState.absent) :
            FileSystem) "p" = some c →
      c = format_fixture_content (JsonValue.obj []) →
      track_fixture_changes (FixtureDiffTracker.mk [] [])
          ((fun q => if q = "p" then FileState.readable "old" else FileState.absent) :
            FileSystem) (JsonValue.obj []) "p" = FixtureDiffTracker.mk [] []) :=
  track_fixture_changes_spec (FixtureDiffTracker.mk [] [])
    ((fun q => if q = "p" then FileState.readable "old" else FileState.absent) : FileSystem)
    (JsonValue.obj []) "p"
